import Mathlib

/-!
Shallow embedding of the symbol-table core of the zoker compiler
(`src/compiler/src/symbol_table.rs`): the scope builder that walks a parsed
program and materialises a tree of symbol tables, and the usage analyzer
that validates every `Used` symbol against an explicit stack of ancestor
scope snapshots.

Rust idioms are rendered as follows: `IndexMap<String, Symbol>` becomes an
association list with insert-preserves-position semantics; stacks (`Vec`
with push/pop at the end) become Lean lists with the head as the top; a
`.unwrap()` that can panic becomes `Option` (with `none` for the panic);
the `Result<_, SymbolTableError>` channel becomes `Except SymbolTableError`.
The builder's own `SymbolTableResult` return type never carries an `Err`
in the source (every branch is `Ok` or propagates), so builder functions
return `Option Builder` where `none` marks a panic.
-/

namespace Zoker

/-- The `SymbolType` from `symbol_table.rs`. -/
inductive SymbolType where
  | Unknown
  | Contract
  | Function
  | Uint256
  | Int256
  | String
  | Address
  | Bytes32
  | Bytes
  | Bool
deriving DecidableEq, Repr

/-- The `SymbolUsage` from `symbol_table.rs`. -/
inductive SymbolUsage where
  | Used
  | Declared
deriving DecidableEq, Repr

/-- The `SymbolTableType` from `symbol_table.rs`. -/
inductive SymbolTableType where
  | Global
  | Contract
  | Function
  | Local
deriving DecidableEq, Repr

/-- The `SymbolLocation` from `symbol_table.rs`. -/
inductive SymbolLocation where
  | Unknown
  | Storage
  | Memory
deriving DecidableEq, Repr

/-- Modelled from the spec: the source-location value attached to errors
(`zoker_parser::location::Location` is not under `src/`); the analyzer only
ever emits `Default::default()` here, so all that matters is the default. -/
structure Location where
  row : Nat
  col : Nat
deriving DecidableEq, Repr

/-- The `Default::default()` for `Location`. -/
def Location.default : Location := ⟨0, 0⟩

/-- The `SymbolTableError` from `symbol_table.rs`. -/
structure SymbolTableError where
  error : String
  location : Location
deriving DecidableEq, Repr

/-- The `Symbol` from `symbol_table.rs`. -/
structure Symbol where
  name : String
  symbol_type : SymbolType
  data_location : SymbolLocation
  role : SymbolUsage
deriving DecidableEq, Repr

/-- The `Symbol::new`. -/
def Symbol.new (name : String) (role : SymbolUsage) (symbol_type : SymbolType)
    (data_location : SymbolLocation) : Symbol :=
  ⟨name, symbol_type, data_location, role⟩

/-- The `IndexMap<String, Symbol>` of the source: an association list in
insertion order with unique keys. -/
abbrev IndexMap : Type := List (String × Symbol)

/-- The `IndexMap::get`: first entry with the given key. -/
def getIM (m : IndexMap) (k : String) : Option Symbol :=
  match m with
  | [] => none
  | (k', v) :: rest => if k' = k then some v else getIM rest k

/-- The `IndexMap::insert`: when the key is present, the value is replaced in
place (the entry keeps its position); otherwise the pair is appended. -/
def insertIM (m : IndexMap) (k : String) (v : Symbol) : IndexMap :=
  match m with
  | [] => [(k, v)]
  | (k', v') :: rest => if k' = k then (k', v) :: rest else (k', v') :: insertIM rest k v

/-- The `SymbolTable` from `symbol_table.rs` (a scope: its name, kind, ordered
symbol map and child scopes in source order). -/
inductive SymbolTable where
  | mk (name : String) (table_type : SymbolTableType) (symbols : IndexMap)
       (sub_tables : List SymbolTable)

/-- Scope name accessor. -/
def SymbolTable.name : SymbolTable → String
  | .mk n _ _ _ => n

/-- Scope kind accessor. -/
def SymbolTable.table_type : SymbolTable → SymbolTableType
  | .mk _ t _ _ => t

/-- Symbol-map accessor. -/
def SymbolTable.symbols : SymbolTable → IndexMap
  | .mk _ _ s _ => s

/-- Child-scope accessor. -/
def SymbolTable.sub_tables : SymbolTable → List SymbolTable
  | .mk _ _ _ c => c

/-- The `AnalysisTable` from `symbol_table.rs`: a snapshot of one scope's symbol
map pushed on the analyzer's ancestor stack. -/
structure AnalysisTable where
  map : IndexMap
  typ : SymbolTableType

/-- The closure of `analyze_symbol`'s `is_declared` test on one stack
entry: the table holds an entry of the given name whose role is not
`Used`. -/
def declared_lookup (table : AnalysisTable) (name : String) : Bool :=
  match getIM table.map name with
  | some sym => sym.role != SymbolUsage.Used
  | none => false

/-- The `self.tables.iter().any(...)` of `analyze_symbol`: some table on the
stack holds an entry of the given name whose role is not `Used`. -/
def is_declared_in (tables : List AnalysisTable) (name : String) : Bool :=
  tables.any (fun table => declared_lookup table name)

/-- The `SymbolAnalyzer::analyze_symbol`: a `Declared` symbol always validates;
a `Used` symbol validates iff some table on the ancestor stack holds an
entry of the same name whose role is not `Used`. -/
def analyze_symbol (tables : List AnalysisTable) (symbol : Symbol) :
    Except SymbolTableError Unit :=
  match symbol.role with
  | .Declared => .ok ()
  | .Used =>
    let is_declared := is_declared_in tables symbol.name
    if is_declared then .ok ()
    else .error ⟨"Variable " ++ symbol.name ++ " is not declared, but used.",
                 Location.default⟩

/-- The loop `for value in analysis_table.map.values_mut() { self.analyze_symbol(value)? }`:
symbols are checked in map (insertion) order, aborting at the first error. -/
def analyze_symbols (tables : List AnalysisTable) : IndexMap →
    Except SymbolTableError Unit
  | [] => .ok ()
  | (_, s) :: rest =>
    match analyze_symbol tables s with
    | .error e => .error e
    | .ok () => analyze_symbols tables rest

mutual
/-- The `SymbolAnalyzer::analyze_symbol_table`: push this scope's snapshot,
recurse into the children in order, pop the snapshot, then check this
scope's own symbols against the remaining stack (its strict ancestors). -/
def analyze_symbol_table (tables : List AnalysisTable) (table : SymbolTable) :
    Except SymbolTableError Unit :=
  match table with
  | .mk _ ttype syms subs =>
    match analyze_sub_tables (⟨syms, ttype⟩ :: tables) subs with
    | .error e => .error e
    | .ok () => analyze_symbols tables syms

/-- The `for sub_table in sub_tables` loop of `analyze_symbol_table`. -/
def analyze_sub_tables (tables : List AnalysisTable) :
    List SymbolTable → Except SymbolTableError Unit
  | [] => .ok ()
  | t :: rest =>
    match analyze_symbol_table tables t with
    | .error e => .error e
    | .ok () => analyze_sub_tables tables rest
end

/-- Modelled from the spec: the parser's `Type` enum
(`String, Uint256, Int256, Bytes32, Bool, Bytes, Address`); the `ast` module
itself is not under `src/`. Named `Ty` because `Type` is reserved in Lean. -/
inductive Ty where
  | String
  | Uint256
  | Int256
  | Bytes32
  | Bool
  | Bytes
  | Address
deriving DecidableEq, Repr

/-- Modelled from the spec: the storage/memory qualifier (`ast::Specifier`). -/
inductive Specifier where
  | Storage
  | Memory
deriving DecidableEq, Repr

mutual
/-- Modelled from the spec: the expression node variants of the parsed
program (assign, ternary, binary, call, if, for-each, unary, parameters,
arguments, number, identifier). The `Located` wrapper of the Rust AST is
dropped: the builder only ever reads `.node`, and source locations play no
part in any claim. -/
inductive Expression where
  | AssignExpression (left right : Expression)
  | TernaryExpression (condition expr1 expr2 : Expression)
  | BinaryExpression (left right : Expression)
  | FunctionCallExpression (function_name arguments : Expression)
  | IfExpression (condition : Expression) (if_statement : Statement)
      (else_statement : Option Statement)
  | ForEachExpression (iterator vector : Expression) (statement : Statement)
      (else_statement : Option Statement)
  | UnaryExpression (expression : Expression)
  | Parameters (parameters : List Statement)
  | Arguments (arguments : List Expression)
  | Number (value : Nat)
  | Identifier (value : String)

/-- Modelled from the spec: the statement node variants (expression,
function, contract, initializer, compound, member). -/
inductive Statement where
  | ExpressionStatement (expression : Expression)
  | FunctionStatement (function_name : Expression) (parameters : Expression)
      (statement : Statement)
  | ContractStatement (contract_name : Expression) (members : Statement)
  | InitializerStatement (variable_type : Ty) (data_location : Option Specifier)
      (var : Expression) (dflt : Option Expression)
  | CompoundStatement (statements : List Statement) (return_value : Option Expression)
  | MemberStatement (statements : List Statement)
end

/-- Modelled from the spec: `ast::Program`. -/
inductive Program where
  | GlobalStatements (statements : List Statement)

/-- Modelled from the spec: `ast::ExpressionType::identifier_name`, `Some`
exactly when the expression is a bare identifier. -/
def Expression.identifier_name : Expression → Option String
  | .Identifier s => some s
  | _ => none

/-- The `SymbolTableBuilder` from `symbol_table.rs`: the per-construct counter
stacks and the open-scope stack. Rust `Vec` push/pop at the end becomes a
Lean list with the head as the top of the stack. -/
structure SymbolTableBuilder where
  if_num : List Nat
  for_num : List Nat
  compound_num : List Nat
  tables : List SymbolTable

/-- The `SymbolTableBuilder::new`. -/
def SymbolTableBuilder.new : SymbolTableBuilder := ⟨[], [], [], []⟩

/-- The `SymbolTableBuilder::enter_scope`: push a zero onto each counter stack
and an empty scope onto the table stack. -/
def enter_scope (b : SymbolTableBuilder) (name : String)
    (table_type : SymbolTableType) : SymbolTableBuilder :=
  ⟨0 :: b.if_num, 0 :: b.for_num, 0 :: b.compound_num,
   .mk name table_type [] [] :: b.tables⟩

/-- The `SymbolTableBuilder::exit_scope`: pop each counter stack (Rust `pop()`
ignores emptiness), pop the finished scope and append it to the end of the
parent's `sub_tables`; the two `.unwrap()`s panic (`none`) unless at least
two scopes are open. -/
def exit_scope (b : SymbolTableBuilder) : Option SymbolTableBuilder :=
  match b.tables with
  | t :: .mk pn pt psyms psubs :: rest =>
    some ⟨b.if_num.tail, b.for_num.tail, b.compound_num.tail,
          .mk pn pt psyms (psubs ++ [t]) :: rest⟩
  | _ => none

/-- The `self.tables.last_mut().unwrap().symbols.insert(name, symbol)`. -/
def insert_top (b : SymbolTableBuilder) (k : String) (s : Symbol) :
    Option SymbolTableBuilder :=
  match b.tables with
  | .mk n t syms subs :: rest =>
    some { b with tables := .mk n t (insertIM syms k s) subs :: rest }
  | [] => none

/-- The `SymbolTableBuilder::check_identifier`: unwrap the bare identifier name
(panicking otherwise), and insert a `Used`/`Unknown`/`Unknown` symbol into
the current scope only when the name is not already present there. -/
def check_identifier (b : SymbolTableBuilder) (identifier : Expression) :
    Option SymbolTableBuilder :=
  match identifier.identifier_name with
  | none => none
  | some name =>
    match b.tables with
    | [] => none
    | .mk n t syms subs :: rest =>
      if (getIM syms name).isNone then
        some { b with tables :=
          SymbolTable.mk n t (insertIM syms name
            (Symbol.new name .Used .Unknown .Unknown)) subs :: rest }
      else
        some b

/-- The `match typ` of `register_identifier`, mapping `ast::Type` to
`SymbolType`. -/
def symbol_type_of (typ : Ty) : SymbolType :=
  match typ with
  | .String => .String
  | .Uint256 => .Uint256
  | .Int256 => .Int256
  | .Bytes32 => .Bytes32
  | .Bool => .Bool
  | .Bytes => .Bytes
  | .Address => .Address

/-- The `SymbolTableBuilder::default_location`. -/
def default_location (typ : SymbolType) : SymbolLocation :=
  match typ with
  | .Unknown => .Unknown
  | .Contract => .Storage
  | .Function => .Storage
  | .Uint256 => .Memory
  | .Int256 => .Memory
  | .String => .Storage
  | .Address => .Memory
  | .Bytes32 => .Storage
  | .Bytes => .Storage
  | .Bool => .Memory

/-- The `SymbolTableBuilder::register_identifier`: unwrap the bare identifier
name, resolve the data location (the given one unless it is `Unknown`, in
which case the type default), and insert a `Declared` symbol into the
current scope (unconditionally, overwriting any existing entry). -/
def register_identifier (b : SymbolTableBuilder) (expr : Expression) (typ : Ty)
    (loc : SymbolLocation) : Option SymbolTableBuilder :=
  match expr.identifier_name with
  | none => none
  | some name =>
    let symbol_type := symbol_type_of typ
    let data_location := if loc ≠ SymbolLocation.Unknown then loc
      else default_location symbol_type
    insert_top b name (Symbol.new name .Declared symbol_type data_location)

/-- The `match data_location` of the `InitializerStatement` case, mapping
`ast::Specifier` to `SymbolLocation`. -/
def specifier_location (s : Specifier) : SymbolLocation :=
  match s with
  | .Storage => SymbolLocation.Storage
  | .Memory => SymbolLocation.Memory

mutual
/-- The `SymbolTableBuilder::enter_statement`; `none` marks a panic of one of
the source's `.unwrap()`s (the `Result` channel of the source never carries
an `Err` in this phase). -/
def enter_statement (b : SymbolTableBuilder) (statement : Statement)
    (location : SymbolLocation) : Option SymbolTableBuilder :=
  match statement with
  | .ExpressionStatement expr => enter_expression b expr
  | .FunctionStatement func params stmt =>
    match func.identifier_name with
    | none => none
    | some name =>
      match insert_top b name (Symbol.new name .Declared .Function .Storage) with
      | none => none
      | some b1 =>
        match enter_expression (enter_scope b1 name .Function) params with
        | none => none
        | some b2 =>
          match enter_block b2 stmt .Unknown with
          | none => none
          | some b3 => exit_scope b3
  | .ContractStatement cname members =>
    match cname.identifier_name with
    | none => none
    | some name =>
      match insert_top b name (Symbol.new name .Declared .Contract .Storage) with
      | none => none
      | some b1 =>
        match enter_statement (enter_scope b1 name .Contract) members location with
        | none => none
        | some b2 => exit_scope b2
  | .InitializerStatement variable_type data_location var dflt =>
    let b1 := match data_location with
      | some spec => register_identifier b var variable_type (specifier_location spec)
      | none => register_identifier b var variable_type location
    match b1 with
    | none => none
    | some b2 =>
      match dflt with
      | some expr => enter_expression b2 expr
      | none => some b2
  | .CompoundStatement stmts returns =>
    match b.compound_num with
    | [] => none
    | n :: cs =>
      let number := n + 1
      let name := "#Compound_" ++ toString number
      let b1 := enter_scope { b with compound_num := number :: cs } name .Local
      match enter_statements b1 stmts location with
      | none => none
      | some b2 =>
        match (match returns with
               | some expr => enter_expression b2 expr
               | none => some b2) with
        | none => none
        | some b3 => exit_scope b3
  | .MemberStatement members => enter_statements b members .Storage

/-- The statement loops of `enter_global_statements`, `enter_block`, the
`CompoundStatement` case and `MemberStatement` case. -/
def enter_statements (b : SymbolTableBuilder) (stmts : List Statement)
    (location : SymbolLocation) : Option SymbolTableBuilder :=
  match stmts with
  | [] => some b
  | s :: rest =>
    match enter_statement b s location with
    | none => none
    | some b1 => enter_statements b1 rest location

/-- The `SymbolTableBuilder::enter_block`: destructure a compound statement and
visit its contents in the current scope (no new scope); any other statement
shape is left untouched. -/
def enter_block (b : SymbolTableBuilder) (compound : Statement)
    (location : SymbolLocation) : Option SymbolTableBuilder :=
  match compound with
  | .CompoundStatement stmts returns =>
    match enter_statements b stmts location with
    | none => none
    | some b1 =>
      match returns with
      | some expr => enter_expression b1 expr
      | none => some b1
  | _ => some b

/-- The `SymbolTableBuilder::enter_expression`. -/
def enter_expression (b : SymbolTableBuilder) (expression : Expression) :
    Option SymbolTableBuilder :=
  match expression with
  | .AssignExpression left right =>
    match enter_expression b left with
    | none => none
    | some b1 => enter_expression b1 right
  | .TernaryExpression condition expr1 expr2 =>
    match enter_expression b condition with
    | none => none
    | some b1 =>
      match enter_expression b1 expr1 with
      | none => none
      | some b2 => enter_expression b2 expr2
  | .BinaryExpression left right =>
    match enter_expression b left with
    | none => none
    | some b1 => enter_expression b1 right
  | .FunctionCallExpression fname args =>
    match enter_expression b fname with
    | none => none
    | some b1 => enter_expression b1 args
  | .IfExpression condition if_statement else_statement =>
    match enter_expression b condition with
    | none => none
    | some b1 =>
      match b1.if_num with
      | [] => none
      | n :: is =>
        let if_num := n + 1
        let if_name := "#If_" ++ toString if_num
        let else_name := "#Else_" ++ toString if_num
        let b2 := enter_scope { b1 with if_num := if_num :: is } if_name .Local
        match enter_block b2 if_statement .Unknown with
        | none => none
        | some b3 =>
          match exit_scope b3 with
          | none => none
          | some b4 =>
            match else_statement with
            | some expr =>
              match enter_block (enter_scope b4 else_name .Local) expr .Unknown with
              | none => none
              | some b5 => exit_scope b5
            | none => some b4
  | .ForEachExpression iterator vector stmt else_statement =>
    match check_identifier b vector with
    | none => none
    | some b1 =>
      match b1.for_num with
      | [] => none
      | n :: fs =>
        let for_num := n + 1
        let for_name := "#For_" ++ toString for_num
        let else_name := "#Else_" ++ toString for_num
        let b2 := enter_scope { b1 with for_num := for_num :: fs } for_name .Local
        match enter_expression b2 iterator with
        | none => none
        | some b3 =>
          match enter_block b3 stmt .Unknown with
          | none => none
          | some b4 =>
            match exit_scope b4 with
            | none => none
            | some b5 =>
              match else_statement with
              | some s =>
                match enter_block (enter_scope b5 else_name .Local) s .Unknown with
                | none => none
                | some b6 => exit_scope b6
              | none => some b5
  | .UnaryExpression expr => enter_expression b expr
  | .Parameters params => enter_statements b params .Unknown
  | .Arguments args => enter_expressions b args
  | .Number _ => some b
  | .Identifier v => check_identifier b (.Identifier v)

/-- The argument loop of the `Arguments` case. -/
def enter_expressions (b : SymbolTableBuilder) (exprs : List Expression) :
    Option SymbolTableBuilder :=
  match exprs with
  | [] => some b
  | e :: rest =>
    match enter_expression b e with
    | none => none
    | some b1 => enter_expressions b1 rest
end

/-- The `SymbolTableBuilder::enter_program`: open the `#Global` scope and visit
each top-level statement with ambient location `Memory`
(`enter_global_statements`). -/
def enter_program (b : SymbolTableBuilder) (program : Program) :
    Option SymbolTableBuilder :=
  match program with
  | .GlobalStatements stmts =>
    enter_statements (enter_scope b "#Global" .Global) stmts .Memory

/-- The `SymbolTableBuilder::build`: pop the finished global scope (panicking
when the stack is empty), run the analyzer on it, and return the table or
the analyzer's error. -/
def build (b : SymbolTableBuilder) : Option (Except SymbolTableError SymbolTable) :=
  match b.tables with
  | [] => none
  | t :: _ =>
    some (match analyze_symbol_table [] t with
          | .error e => .error e
          | .ok () => .ok t)

/-- The `make_symbol_tables`: `SymbolTableBuilder::new().prepare_table(program)?.build()`;
the outer `Option` marks a builder panic, the inner `Except` is the
function's `Result`. -/
def make_symbol_tables (program : Program) :
    Option (Except SymbolTableError SymbolTable) :=
  match enter_program SymbolTableBuilder.new program with
  | none => none
  | some b => build b

/-! ## Derived observers used by the theorems -/

/-- The symbol map of the innermost open scope (empty when no scope is
open). -/
def top_symbols (b : SymbolTableBuilder) : IndexMap :=
  match b.tables with
  | [] => []
  | t :: _ => t.symbols

/-- The names of the child scopes reached by following the given child
indices from the root. -/
def scope_names_at (t : SymbolTable) (path : List Nat) : Option (List String) :=
  match path with
  | [] => some (t.sub_tables.map SymbolTable.name)
  | i :: rest =>
    match t.sub_tables.get? i with
    | none => none
    | some c => scope_names_at c rest

/-- The `Descends stack t stack' scope`: starting from scope `t` whose strict
ancestors' snapshots are `stack`, the scope `scope` is `t` itself or a
(transitive) child, and `stack'` is the snapshot stack of `scope`'s strict
ancestors — exactly the stack the analyzer has in hand when it checks
`scope`'s own symbols. -/
inductive Descends : List AnalysisTable → SymbolTable → List AnalysisTable → SymbolTable → Prop
  | refl (stack : List AnalysisTable) (t : SymbolTable) : Descends stack t stack t
  | step {stack stack' : List AnalysisTable} {scope t' : SymbolTable}
      (n : String) (ty : SymbolTableType) (syms : IndexMap) (subs : List SymbolTable)
      (hmem : t' ∈ subs)
      (h : Descends (⟨syms, ty⟩ :: stack) t' stack' scope) :
      Descends stack (.mk n ty syms subs) stack' scope

/-! ## Concrete programs used by counterexamples and witnesses -/

/-- A function body `{ if (1) {} if (1) {} }`: two sequential ifs. -/
def two_ifs_body : Statement :=
  .CompoundStatement
    [ .ExpressionStatement (.IfExpression (.Number 1)
        (.CompoundStatement [] none) none),
      .ExpressionStatement (.IfExpression (.Number 1)
        (.CompoundStatement [] none) none) ] none

/-- A function body `{ if (1) {} }`: one if. -/
def one_if_body : Statement :=
  .CompoundStatement
    [ .ExpressionStatement (.IfExpression (.Number 1)
        (.CompoundStatement [] none) none) ] none

/-- Two contracts: the function of the first holds two sequential ifs,
the function of the second holds one. -/
def prog_two_contracts : Program :=
  .GlobalStatements
    [ .ContractStatement (.Identifier "C1") (.MemberStatement
        [ .FunctionStatement (.Identifier "f") (.Parameters []) two_ifs_body ]),
      .ContractStatement (.Identifier "C2") (.MemberStatement
        [ .FunctionStatement (.Identifier "g") (.Parameters []) one_if_body ]) ]

/-- A global scope holding `uint256 v`, an if with an else branch, and a
for-each (over `v`) with an else branch. -/
def prog_else_collision : Program :=
  .GlobalStatements
    [ .InitializerStatement .Uint256 none (.Identifier "v") none,
      .ExpressionStatement (.IfExpression (.Number 1)
        (.CompoundStatement [] none) (some (.CompoundStatement [] none))),
      .ExpressionStatement (.ForEachExpression (.Number 0) (.Identifier "v")
        (.CompoundStatement [] none) (some (.CompoundStatement [] none))) ]

/-- The `x; uint256 x;` at global scope: a use of `x` followed by its
declaration in the same scope. -/
def prog_use_then_declare : Program :=
  .GlobalStatements
    [ .ExpressionStatement (.Identifier "x"),
      .InitializerStatement .Uint256 none (.Identifier "x") none ]

/-- A for-each whose iterated collection is the literal `1`, not a bare
identifier. -/
def prog_foreach_bad_vector : Program :=
  .GlobalStatements
    [ .ExpressionStatement (.ForEachExpression (.Number 0) (.Number 1)
        (.CompoundStatement [] none) none) ]

/-! ## Wellformedness of the input program (bare identifiers) -/

mutual
/-- Every position handed to `identifier_name().unwrap()` by the builder —
function names, contract names, declared variables, for-each collections —
is a bare identifier. -/
def wf_statement : Statement → Bool
  | .ExpressionStatement e => wf_expression e
  | .FunctionStatement fn params stmt =>
    fn.identifier_name.isSome && wf_expression params && wf_statement stmt
  | .ContractStatement cn members =>
    cn.identifier_name.isSome && wf_statement members
  | .InitializerStatement _ _ var dflt =>
    var.identifier_name.isSome &&
    (match dflt with | some e => wf_expression e | none => true)
  | .CompoundStatement stmts ret =>
    wf_statements stmts &&
    (match ret with | some e => wf_expression e | none => true)
  | .MemberStatement ms => wf_statements ms

/-- List version of `wf_statement`. -/
def wf_statements : List Statement → Bool
  | [] => true
  | s :: rest => wf_statement s && wf_statements rest

/-- Expression part of the bare-identifier wellformedness. -/
def wf_expression : Expression → Bool
  | .AssignExpression l r => wf_expression l && wf_expression r
  | .TernaryExpression c e1 e2 =>
    wf_expression c && wf_expression e1 && wf_expression e2
  | .BinaryExpression l r => wf_expression l && wf_expression r
  | .FunctionCallExpression f args => wf_expression f && wf_expression args
  | .IfExpression c i e =>
    wf_expression c && wf_statement i &&
    (match e with | some s => wf_statement s | none => true)
  | .ForEachExpression it vec st el =>
    vec.identifier_name.isSome && wf_expression it && wf_statement st &&
    (match el with | some s => wf_statement s | none => true)
  | .UnaryExpression e => wf_expression e
  | .Parameters ps => wf_statements ps
  | .Arguments args => wf_expressions args
  | .Number _ => true
  | .Identifier _ => true

/-- List version of `wf_expression`. -/
def wf_expressions : List Expression → Bool
  | [] => true
  | e :: rest => wf_expression e && wf_expressions rest
end

/-- A program all of whose name positions are bare identifiers. -/
def wf_program : Program → Bool
  | .GlobalStatements stmts => wf_statements stmts

/-! ## Synthetic-name uniqueness apparatus -/

/-- Decimal decoding of a digit list (inverse of `Nat.toDigits 10`). -/
def decodeDigits (l : List Char) : Nat :=
  l.foldl (fun a c => a * 10 + (c.toNat - 48)) 0

/-- A `Local` (synthetic) child scope whose name renders the family prefix
with index `k` has `k ≤ n`. -/
def synth_le (pre : String) (n : Nat) (c : SymbolTable) : Prop :=
  c.table_type = .Local → ∀ k, c.name = pre ++ Nat.repr k → k ≤ n

/-- Two scopes both carry the synthetic name of family `pre` with the same
index. -/
def same_synth (pre : String) (c1 c2 : SymbolTable) : Prop :=
  ∃ k, c1.name = pre ++ Nat.repr k ∧ c2.name = pre ++ Nat.repr k

/-- Sibling scopes: two synthetic (`Local`) siblings never share an `If`,
`For` or `Compound` synthetic name. (`Else` names are exempt: the if and
for-each counters are independent.) -/
def sibs_ok (cs : List SymbolTable) : Prop :=
  List.Pairwise (fun c1 c2 =>
    c1.table_type = .Local → c2.table_type = .Local →
      ¬ same_synth "#If_" c1 c2 ∧ ¬ same_synth "#For_" c1 c2 ∧
      ¬ same_synth "#Compound_" c1 c2) cs

/-- Every scope of the tree has `sibs_ok` children, recursively. -/
inductive GoodTree : SymbolTable → Prop where
  | mk (n : String) (ty : SymbolTableType) (syms : IndexMap)
      (subs : List SymbolTable) (hsibs : sibs_ok subs)
      (hsub : ∀ c ∈ subs, GoodTree c) : GoodTree (.mk n ty syms subs)

/-- Invariant of one open builder frame: the children built so far are
bounded by the frame's counters, are sibling-consistent, and are good
trees. -/
def frame_ok (cs : List SymbolTable) (ni nf nc : Nat) : Prop :=
  (∀ c ∈ cs, synth_le "#If_" ni c ∧ synth_le "#For_" nf c ∧
             synth_le "#Compound_" nc c) ∧
  sibs_ok cs ∧ (∀ c ∈ cs, GoodTree c)

/-! ## Basic lemmas about the map and the per-symbol check -/

/-- A successful lookup pinpoints a member of the association list. -/
theorem getIM_mem {m : IndexMap} {k : String} {v : Symbol}
    (h : getIM m k = some v) : (k, v) ∈ m := by
  induction m with
  | nil => simp [getIM] at h
  | cons p rest ih =>
    obtain ⟨k', v'⟩ := p
    by_cases hk : k' = k
    · subst hk
      simp [getIM] at h
      simp [h]
    · simp [getIM, hk] at h
      exact List.mem_cons_of_mem _ (ih h)

/-- Looking up the key just inserted yields the inserted value. -/
theorem getIM_insertIM_self (m : IndexMap) (k : String) (v : Symbol) :
    getIM (insertIM m k v) k = some v := by
  induction m with
  | nil => simp [insertIM, getIM]
  | cons p rest ih =>
    obtain ⟨k', v'⟩ := p
    by_cases hk : k' = k
    · simp [insertIM, hk, getIM]
    · simp [insertIM, hk, getIM, ih]

/-- Looking up any other key is unaffected by an insert. -/
theorem getIM_insertIM_ne (m : IndexMap) (k k' : String) (v : Symbol)
    (h : k ≠ k') : getIM (insertIM m k v) k' = getIM m k' := by
  induction m with
  | nil => simp [insertIM, getIM, h]
  | cons p rest ih =>
    obtain ⟨k₀, v₀⟩ := p
    by_cases hk : k₀ = k
    · subst hk
      simp [insertIM, getIM, h]
    · simp [insertIM, hk, getIM, ih]

/-- The ancestor test succeeds exactly when some stack entry holds a
`Declared` symbol of the name (the roles being two-valued, "not `Used`"
and "`Declared`" coincide). -/
theorem is_declared_in_iff (tables : List AnalysisTable) (name : String) :
    is_declared_in tables name = true ↔
      ∃ table ∈ tables, ∃ sym, getIM table.map name = some sym ∧
        sym.role = SymbolUsage.Declared := by
  unfold is_declared_in
  rw [List.any_eq_true]
  constructor
  · rintro ⟨table, hmem, hp⟩
    refine ⟨table, hmem, ?_⟩
    unfold declared_lookup at hp
    cases hget : getIM table.map name with
    | none => rw [hget] at hp; simp at hp
    | some sym =>
      rw [hget] at hp
      refine ⟨sym, rfl, ?_⟩
      cases hrole : sym.role with
      | Used => simp [hrole] at hp
      | Declared => rfl
  · rintro ⟨table, hmem, sym, hget, hrole⟩
    refine ⟨table, hmem, ?_⟩
    unfold declared_lookup
    rw [hget]
    simp [hrole]

/-- The `analyze_symbol` succeeds exactly when the symbol is `Declared` or the
ancestor test finds a declaration of its name. -/
theorem analyze_symbol_ok_iff (tables : List AnalysisTable) (s : Symbol) :
    analyze_symbol tables s = .ok () ↔
      (s.role = .Declared ∨ is_declared_in tables s.name = true) := by
  unfold analyze_symbol
  cases hrole : s.role with
  | Declared => simp [hrole]
  | Used =>
    by_cases h : is_declared_in tables s.name = true
    · simp [hrole, h]
    · simp [hrole, h]

/-- When `analyze_symbol` fails, the error carries exactly the
`"Variable <name> is not declared, but used."` message, the default
location, a `Used` role and a failed ancestor test. -/
theorem analyze_symbol_error_iff (tables : List AnalysisTable) (s : Symbol)
    (e : SymbolTableError) :
    analyze_symbol tables s = .error e ↔
      (s.role = .Used ∧ is_declared_in tables s.name = false ∧
       e = ⟨"Variable " ++ s.name ++ " is not declared, but used.",
            Location.default⟩) := by
  unfold analyze_symbol
  cases hrole : s.role with
  | Declared => simp [hrole]
  | Used =>
    by_cases h : is_declared_in tables s.name = true
    · simp [hrole, h]
    · simp [hrole, h, eq_comm]

/-- The `analyze_symbols` succeeds exactly when every symbol of the map passes
`analyze_symbol` against the given stack. -/
theorem analyze_symbols_ok_iff (tables : List AnalysisTable) (syms : IndexMap) :
    analyze_symbols tables syms = .ok () ↔
      ∀ p ∈ syms, analyze_symbol tables p.2 = .ok () := by
  induction syms with
  | nil => simp [analyze_symbols]
  | cons p rest ih =>
    obtain ⟨k, s⟩ := p
    unfold analyze_symbols
    split
    · next e heq =>
      constructor
      · intro hc; cases hc
      · intro hall
        have h2 := hall (k, s) (List.mem_cons_self _ _)
        simp only at h2
        rw [h2] at heq
        cases heq
    · next heq =>
      rw [ih, List.forall_mem_cons]
      simp [heq]

mutual
/-- The analyzer accepts a scope (analyzed with `stack` holding the
snapshots of its strict ancestors) exactly when every symbol of every
scope it contains passes `analyze_symbol` against that scope's own
strict-ancestor stack. -/
theorem analyze_table_ok_iff (stack : List AnalysisTable) (t : SymbolTable) :
    analyze_symbol_table stack t = .ok () ↔
      ∀ stack' scope, Descends stack t stack' scope →
        ∀ p ∈ scope.symbols, analyze_symbol stack' p.2 = .ok () := by
  cases t with
  | mk n ty syms subs =>
    have ihsub := analyze_sub_tables_ok_iff (⟨syms, ty⟩ :: stack) subs
    have hstep : analyze_symbol_table stack (.mk n ty syms subs) = .ok () ↔
        (analyze_sub_tables (⟨syms, ty⟩ :: stack) subs = .ok () ∧
         analyze_symbols stack syms = .ok ()) := by
      unfold analyze_symbol_table
      split
      · next e heq => simp [heq]
      · next heq => simp [heq]
    rw [hstep, ihsub, analyze_symbols_ok_iff]
    constructor
    · rintro ⟨hsubs, hsyms⟩ stack' scope hdesc
      cases hdesc with
      | refl => exact hsyms
      | step _ _ _ _ hmem h => exact hsubs _ hmem _ _ h
    · intro hall
      refine ⟨fun t' hmem stack' scope hdesc => ?_, ?_⟩
      · exact hall stack' scope (.step n ty syms subs hmem hdesc)
      · have h := hall stack (.mk n ty syms subs) (.refl _ _)
        simpa [SymbolTable.symbols] using h

/-- List version of `analyze_table_ok_iff` for the child loop. -/
theorem analyze_sub_tables_ok_iff (stack : List AnalysisTable) (ts : List SymbolTable) :
    analyze_sub_tables stack ts = .ok () ↔
      ∀ t ∈ ts, ∀ stack' scope, Descends stack t stack' scope →
        ∀ p ∈ scope.symbols, analyze_symbol stack' p.2 = .ok () := by
  cases ts with
  | nil => simp [analyze_sub_tables]
  | cons t rest =>
    have iht := analyze_table_ok_iff stack t
    have ihrest := analyze_sub_tables_ok_iff stack rest
    unfold analyze_sub_tables
    split
    · next e heq =>
      constructor
      · intro hc; cases hc
      · intro hall
        have hok : analyze_symbol_table stack t = .ok () :=
          iht.mpr (fun s' sc hd => hall t (List.mem_cons_self _ _) s' sc hd)
        rw [hok] at heq
        cases heq
    · next heq =>
      rw [ihrest]
      constructor
      · intro hrest t' hmem
        rcases List.mem_cons.mp hmem with h | h
        · subst h
          exact iht.mp heq
        · exact hrest t' h
      · intro hall t' hmem
        exact hall t' (List.mem_cons_of_mem _ hmem)
end

/-- Per-symbol resolution, phrased from the point of view of a `Used`
entry: it passes exactly when some stack table declares its name. -/
theorem analyze_symbol_ok_iff_used (tables : List AnalysisTable) (s : Symbol) :
    analyze_symbol tables s = .ok () ↔
      (s.role = .Used →
        ∃ table ∈ tables, ∃ sym, getIM table.map s.name = some sym ∧
          sym.role = SymbolUsage.Declared) := by
  rw [analyze_symbol_ok_iff, is_declared_in_iff]
  cases hrole : s.role with
  | Declared => simp
  | Used => simp

/-- Every error of `analyze_symbols` is produced by some `Used` symbol of
the map whose ancestor test failed, with the fixed message format. -/
theorem analyze_symbols_error_shape (tables : List AnalysisTable) (syms : IndexMap)
    (e : SymbolTableError) (h : analyze_symbols tables syms = .error e) :
    ∃ p ∈ syms, p.2.role = .Used ∧ is_declared_in tables p.2.name = false ∧
      e = ⟨"Variable " ++ p.2.name ++ " is not declared, but used.",
           Location.default⟩ := by
  induction syms with
  | nil => simp [analyze_symbols] at h
  | cons p rest ih =>
    obtain ⟨k, s⟩ := p
    unfold analyze_symbols at h
    split at h
    · next e' heq =>
      cases h
      rw [analyze_symbol_error_iff] at heq
      obtain ⟨hrole, hdecl, he⟩ := heq
      exact ⟨(k, s), List.mem_cons_self _ _, hrole, hdecl, he⟩
    · next heq =>
      obtain ⟨q, hmem, hx⟩ := ih h
      exact ⟨q, List.mem_cons_of_mem _ hmem, hx⟩

mutual
/-- Every error of `analyze_symbol_table` comes from a `Used` symbol of
some contained scope whose strict-ancestor test failed, carrying the
fixed message and the default location. -/
theorem analyze_table_error_shape (stack : List AnalysisTable) (t : SymbolTable)
    (e : SymbolTableError) (h : analyze_symbol_table stack t = .error e) :
    ∃ stack' scope, Descends stack t stack' scope ∧ ∃ p ∈ scope.symbols,
      p.2.role = .Used ∧ is_declared_in stack' p.2.name = false ∧
      e = ⟨"Variable " ++ p.2.name ++ " is not declared, but used.",
           Location.default⟩ := by
  cases t with
  | mk n ty syms subs =>
    unfold analyze_symbol_table at h
    split at h
    · next e' heq =>
      cases h
      obtain ⟨t', hmem, stack', scope, hd, hx⟩ :=
        analyze_sub_tables_error_shape (⟨syms, ty⟩ :: stack) subs e heq
      exact ⟨stack', scope, .step n ty syms subs hmem hd, hx⟩
    · next heq =>
      obtain ⟨p, hmem, hx⟩ := analyze_symbols_error_shape stack syms e h
      exact ⟨stack, .mk n ty syms subs, .refl _ _, p, hmem, hx⟩

/-- List version of `analyze_table_error_shape` for the child loop. -/
theorem analyze_sub_tables_error_shape (stack : List AnalysisTable)
    (ts : List SymbolTable) (e : SymbolTableError)
    (h : analyze_sub_tables stack ts = .error e) :
    ∃ t' ∈ ts, ∃ stack' scope, Descends stack t' stack' scope ∧
      ∃ p ∈ scope.symbols, p.2.role = .Used ∧
        is_declared_in stack' p.2.name = false ∧
        e = ⟨"Variable " ++ p.2.name ++ " is not declared, but used.",
             Location.default⟩ := by
  cases ts with
  | nil => simp [analyze_sub_tables] at h
  | cons t rest =>
    unfold analyze_sub_tables at h
    split at h
    · next e' heq =>
      cases h
      obtain ⟨stack', scope, hd, hx⟩ := analyze_table_error_shape stack t e heq
      exact ⟨t, List.mem_cons_self _ _, stack', scope, hd, hx⟩
    · next heq =>
      obtain ⟨t', hmem, hx⟩ := analyze_sub_tables_error_shape stack rest e h
      exact ⟨t', List.mem_cons_of_mem _ hmem, hx⟩
end

/-- C1: for every completed scope tree, a symbol with role `Used` in some
scope is resolved by the analyzer if and only if some strict ancestor
scope (the snapshot stack `stack'` that `Descends` assigns to the scope —
not the scope itself, not a descendant, not a sibling) contains an entry
of the same name with role `Declared`; an entry with role `Used` in an
ancestor never resolves the reference. -/
theorem used_symbol_resolved_iff_strict_ancestor_declared
    (stack : List AnalysisTable) (t : SymbolTable) :
    analyze_symbol_table stack t = .ok () ↔
      ∀ stack' scope, Descends stack t stack' scope →
        ∀ p ∈ scope.symbols, p.2.role = .Used →
          ∃ table ∈ stack', ∃ sym, getIM table.map p.2.name = some sym ∧
            sym.role = SymbolUsage.Declared := by
  rw [analyze_table_ok_iff]
  constructor
  · intro h stack' scope hd p hp hrole
    exact (analyze_symbol_ok_iff_used stack' p.2).mp (h stack' scope hd p hp) hrole
  · intro h stack' scope hd p hp
    exact (analyze_symbol_ok_iff_used stack' p.2).mpr
      (fun hrole => h stack' scope hd p hp hrole)

/-- C2: whenever the scope tree holds a `Used` symbol whose name the
strict-ancestor test cannot resolve, the analyzer returns an error, and
its message is exactly `"Variable <name> is not declared, but used."`
with the symbol's name, at the default location. -/
theorem undeclared_use_yields_exact_message (t : SymbolTable)
    (h : ∃ stack' scope, Descends [] t stack' scope ∧ ∃ p ∈ scope.symbols,
          p.2.role = .Used ∧ is_declared_in stack' p.2.name = false) :
    ∃ e, analyze_symbol_table [] t = .error e ∧
      ∃ stack' scope p, Descends [] t stack' scope ∧ p ∈ scope.symbols ∧
        p.2.role = .Used ∧ is_declared_in stack' p.2.name = false ∧
        e.error = "Variable " ++ p.2.name ++ " is not declared, but used." ∧
        e.location = Location.default := by
  cases hres : analyze_symbol_table [] t with
  | ok u =>
    obtain ⟨⟩ := u
    exfalso
    obtain ⟨stack', scope, hd, p, hmem, hrole, hdecl⟩ := h
    have hok := (analyze_table_ok_iff [] t).mp hres stack' scope hd p hmem
    rw [analyze_symbol_ok_iff] at hok
    rcases hok with h1 | h1
    · rw [hrole] at h1; cases h1
    · rw [h1] at hdecl; cases hdecl
  | error e =>
    obtain ⟨stack', scope, hd, p, hmem, hrole, hdecl, he⟩ :=
      analyze_table_error_shape [] t e hres
    exact ⟨e, rfl, stack', scope, p, hd, hmem, hrole, hdecl,
           by rw [he], by rw [he]⟩

/-- Witness for C2 at Scenario A's tree (`y` used at global scope,
declared nowhere). -/
theorem undeclared_use_yields_exact_message_witness :
    (∃ stack' scope,
      Descends [] (.mk "#Global" .Global
        [("y", ⟨"y", .Unknown, .Unknown, .Used⟩)] []) stack' scope ∧
      ∃ p ∈ scope.symbols, p.2.role = .Used ∧
        is_declared_in stack' p.2.name = false) ∧
    ∃ e, analyze_symbol_table []
        (.mk "#Global" .Global [("y", ⟨"y", .Unknown, .Unknown, .Used⟩)] []) =
        .error e ∧
      ∃ stack' scope p,
        Descends [] (.mk "#Global" .Global
          [("y", ⟨"y", .Unknown, .Unknown, .Used⟩)] []) stack' scope ∧
        p ∈ scope.symbols ∧ p.2.role = .Used ∧
        is_declared_in stack' p.2.name = false ∧
        e.error = "Variable " ++ p.2.name ++ " is not declared, but used." ∧
        e.location = Location.default :=
  ⟨⟨[], _, .refl _ _, ("y", ⟨"y", .Unknown, .Unknown, .Used⟩),
    List.mem_cons_self _ _, rfl, rfl⟩,
   undeclared_use_yields_exact_message _
    ⟨[], _, .refl _ _, ("y", ⟨"y", .Unknown, .Unknown, .Used⟩),
     List.mem_cons_self _ _, rfl, rfl⟩⟩

/-- C5: a name declared only inside one branch scope `A` never resolves a
reference to the same name made in the sibling scope `B`: whatever `A`
contains, if `B` holds a `Used` entry whose name the chain above `B` (its
parent and the parent's ancestors — not `A`) does not declare, analysis of
the parent fails. -/
theorem sibling_declaration_never_resolves (stack : List AnalysisTable)
    (pname : String) (pty : SymbolTableType) (psyms : IndexMap)
    (A B : SymbolTable) (n : String) (s : Symbol)
    (hget : getIM B.symbols n = some s) (hrole : s.role = .Used)
    (hname : s.name = n)
    (hnores : is_declared_in (⟨psyms, pty⟩ :: stack) n = false) :
    analyze_symbol_table stack (.mk pname pty psyms [A, B]) ≠ .ok () := by
  intro hok
  have hB : B ∈ [A, B] := by simp
  have h := (analyze_table_ok_iff stack _).mp hok (⟨psyms, pty⟩ :: stack) B
    (.step pname pty psyms [A, B] hB (.refl _ _)) (n, s) (getIM_mem hget)
  rw [analyze_symbol_ok_iff] at h
  rcases h with h | h
  · rw [hrole] at h; cases h
  · rw [hname] at h
    rw [h] at hnores
    cases hnores

/-- Analyzing a concatenated child list runs the first part and continues
with the second only when the first succeeded. -/
theorem analyze_sub_tables_append (stack : List AnalysisTable)
    (ts1 ts2 : List SymbolTable) :
    analyze_sub_tables stack (ts1 ++ ts2) =
      match analyze_sub_tables stack ts1 with
      | .error e => .error e
      | .ok () => analyze_sub_tables stack ts2 := by
  induction ts1 with
  | nil => simp [analyze_sub_tables]
  | cons t rest ih =>
    simp only [List.cons_append]
    rw [show analyze_sub_tables stack (t :: (rest ++ ts2)) =
          (match analyze_symbol_table stack t with
           | .error e => .error e
           | .ok () => analyze_sub_tables stack (rest ++ ts2)) from rfl,
        show analyze_sub_tables stack (t :: rest) =
          (match analyze_symbol_table stack t with
           | .error e => .error e
           | .ok () => analyze_sub_tables stack rest) from rfl]
    cases h : analyze_symbol_table stack t with
    | error e => rfl
    | ok u => obtain ⟨⟩ := u; exact ih

/-- Checking a concatenated symbol list runs the first part and continues
with the second only when the first succeeded. -/
theorem analyze_symbols_append (stack : List AnalysisTable)
    (m1 m2 : IndexMap) :
    analyze_symbols stack (m1 ++ m2) =
      match analyze_symbols stack m1 with
      | .error e => .error e
      | .ok () => analyze_symbols stack m2 := by
  induction m1 with
  | nil => simp [analyze_symbols]
  | cons p rest ih =>
    obtain ⟨k, s⟩ := p
    simp only [List.cons_append]
    rw [show analyze_symbols stack ((k, s) :: (rest ++ m2)) =
          (match analyze_symbol stack s with
           | .error e => .error e
           | .ok () => analyze_symbols stack (rest ++ m2)) from rfl,
        show analyze_symbols stack ((k, s) :: rest) =
          (match analyze_symbol stack s with
           | .error e => .error e
           | .ok () => analyze_symbols stack rest) from rfl]
    cases h : analyze_symbol stack s with
    | error e => rfl
    | ok u => obtain ⟨⟩ := u; exact ih

/-- C8: the analyzer works deepest-first and aborts on the first error in
traversal order: children are processed left to right, each part of a
child list only runs when everything before it succeeded; a failing child
list makes the scope fail with that same error, before the scope's own
symbols are ever examined; and when the children all pass, the scope's
result is exactly the insertion-order check of its own symbol map. -/
theorem analyzer_deepest_first_first_error (stack : List AnalysisTable) :
    (∀ ts1 ts2 : List SymbolTable,
       analyze_sub_tables stack (ts1 ++ ts2) =
         match analyze_sub_tables stack ts1 with
         | .error e => .error e
         | .ok () => analyze_sub_tables stack ts2) ∧
    (∀ m1 m2 : IndexMap,
       analyze_symbols stack (m1 ++ m2) =
         match analyze_symbols stack m1 with
         | .error e => .error e
         | .ok () => analyze_symbols stack m2) ∧
    (∀ nm ty syms subs e,
       analyze_sub_tables (⟨syms, ty⟩ :: stack) subs = .error e →
       analyze_symbol_table stack (.mk nm ty syms subs) = .error e) ∧
    (∀ nm ty syms subs,
       analyze_sub_tables (⟨syms, ty⟩ :: stack) subs = .ok () →
       analyze_symbol_table stack (.mk nm ty syms subs) =
         analyze_symbols stack syms) := by
  refine ⟨analyze_sub_tables_append stack, analyze_symbols_append stack,
          fun nm ty syms subs e h => ?_, fun nm ty syms subs h => ?_⟩
  · unfold analyze_symbol_table
    rw [h]
  · unfold analyze_symbol_table
    rw [h]

/-- Witness for C8: a failing child aborts its parent with the child's
error before the parent's own symbols are checked. -/
theorem analyzer_deepest_first_first_error_witness :
    analyze_sub_tables [⟨[], SymbolTableType.Local⟩]
        [.mk "A" .Local [("u", ⟨"u", .Unknown, .Unknown, .Used⟩)] []] =
      .error ⟨"Variable u is not declared, but used.", Location.default⟩ ∧
    analyze_symbol_table [] (.mk "P" .Local []
        [.mk "A" .Local [("u", ⟨"u", .Unknown, .Unknown, .Used⟩)] []]) =
      .error ⟨"Variable u is not declared, but used.", Location.default⟩ :=
  ⟨rfl, (analyzer_deepest_first_first_error []).2.2.1 "P" .Local [] _ _ rfl⟩

/-- The `register_identifier` on a bare identifier, with at least one open
scope: the symbol is inserted into the innermost scope as `Declared` with
the given location unless that is `Unknown`, in which case the type
default. -/
theorem register_identifier_spec (b : SymbolTableBuilder) (nm : String)
    (tt : SymbolTableType) (syms : IndexMap) (subs rest : List SymbolTable)
    (x : String) (ty : Ty) (loc : SymbolLocation)
    (hb : b.tables = .mk nm tt syms subs :: rest) :
    register_identifier b (.Identifier x) ty loc =
      some { b with tables := .mk nm tt (insertIM syms x
        (Symbol.new x .Declared (symbol_type_of ty)
          (if loc ≠ SymbolLocation.Unknown then loc
           else default_location (symbol_type_of ty)))) subs :: rest } := by
  simp only [register_identifier, Expression.identifier_name, insert_top, hb]

/-- C3: an `InitializerStatement` registers its variable with: the explicit
storage/memory qualifier when present; otherwise the ambient location,
unless that is `Unknown`, in which case the type-default location — and the
type defaults are `Memory` for `Uint256`, `Int256`, `Address`, `Bool` and
`Storage` for `String`, `Bytes32`, `Bytes`, `Contract`, `Function`. -/
theorem initializer_registered_location (b : SymbolTableBuilder) (nm : String)
    (tt : SymbolTableType) (syms : IndexMap) (subs rest : List SymbolTable)
    (ty : Ty) (dloc : Option Specifier) (x : String) (amb : SymbolLocation)
    (hb : b.tables = .mk nm tt syms subs :: rest) :
    (∃ b', enter_statement b (.InitializerStatement ty dloc (.Identifier x) none) amb
        = some b' ∧
      getIM (top_symbols b') x = some (Symbol.new x .Declared (symbol_type_of ty)
        (match dloc with
         | some spec => specifier_location spec
         | none => if amb ≠ SymbolLocation.Unknown then amb
                   else default_location (symbol_type_of ty)))) ∧
    default_location (symbol_type_of .Uint256) = .Memory ∧
    default_location (symbol_type_of .Int256) = .Memory ∧
    default_location (symbol_type_of .Address) = .Memory ∧
    default_location (symbol_type_of .Bool) = .Memory ∧
    default_location (symbol_type_of .String) = .Storage ∧
    default_location (symbol_type_of .Bytes32) = .Storage ∧
    default_location (symbol_type_of .Bytes) = .Storage ∧
    default_location SymbolType.Contract = .Storage ∧
    default_location SymbolType.Function = .Storage := by
  refine ⟨?_, rfl, rfl, rfl, rfl, rfl, rfl, rfl, rfl, rfl⟩
  cases dloc with
  | some spec =>
    have hreg := register_identifier_spec b nm tt syms subs rest x ty
      (specifier_location spec) hb
    have hne : specifier_location spec ≠ SymbolLocation.Unknown := by
      cases spec <;> simp [specifier_location]
    rw [if_pos hne] at hreg
    have h1 : enter_statement b
        (.InitializerStatement ty (some spec) (.Identifier x) none) amb =
        some { b with tables := .mk nm tt (insertIM syms x
          (Symbol.new x .Declared (symbol_type_of ty)
            (specifier_location spec))) subs :: rest } := by
      rw [show enter_statement b
            (.InitializerStatement ty (some spec) (.Identifier x) none) amb =
            (match register_identifier b (.Identifier x) ty
                (specifier_location spec) with
             | none => none
             | some b2 => some b2) from rfl, hreg]
    refine ⟨_, h1, ?_⟩
    simp [top_symbols, SymbolTable.symbols, getIM_insertIM_self]
  | none =>
    have hreg := register_identifier_spec b nm tt syms subs rest x ty amb hb
    have h1 : enter_statement b
        (.InitializerStatement ty none (.Identifier x) none) amb =
        some { b with tables := .mk nm tt (insertIM syms x
          (Symbol.new x .Declared (symbol_type_of ty)
            (if amb ≠ SymbolLocation.Unknown then amb
             else default_location (symbol_type_of ty)))) subs :: rest } := by
      rw [show enter_statement b
            (.InitializerStatement ty none (.Identifier x) none) amb =
            (match register_identifier b (.Identifier x) ty amb with
             | none => none
             | some b2 => some b2) from rfl, hreg]
    refine ⟨_, h1, ?_⟩
    simp [top_symbols, SymbolTable.symbols, getIM_insertIM_self]

/-- Witness for C3: an unqualified `uint256 x` with ambient location
`Unknown` (function scope) resolves to `Memory`. -/
theorem initializer_registered_location_witness :
    (enter_scope SymbolTableBuilder.new "f" .Function).tables =
      SymbolTable.mk "f" .Function [] [] :: [] ∧
    ∃ b', enter_statement (enter_scope SymbolTableBuilder.new "f" .Function)
        (.InitializerStatement .Uint256 none (.Identifier "x") none) .Unknown
        = some b' ∧
      getIM (top_symbols b') "x" =
        some (Symbol.new "x" .Declared (symbol_type_of .Uint256)
          (match (none : Option Specifier) with
           | some spec => specifier_location spec
           | none => if SymbolLocation.Unknown ≠ SymbolLocation.Unknown
                     then SymbolLocation.Unknown
                     else default_location (symbol_type_of .Uint256))) :=
  ⟨rfl, (initializer_registered_location _ "f" .Function [] [] [] .Uint256 none
    "x" .Unknown rfl).1⟩


/-- Witness for C5: `a` declared only in the `#If_1` sibling does not
resolve `a` used in `#Else_1`. -/
theorem sibling_declaration_never_resolves_witness :
    getIM (SymbolTable.mk "#Else_1" .Local
        [("a", ⟨"a", .Unknown, .Unknown, .Used⟩)] []).symbols "a" =
      some ⟨"a", .Unknown, .Unknown, .Used⟩ ∧
    (⟨"a", .Unknown, .Unknown, .Used⟩ : Symbol).role = .Used ∧
    (⟨"a", .Unknown, .Unknown, .Used⟩ : Symbol).name = "a" ∧
    is_declared_in [⟨[], SymbolTableType.Function⟩] "a" = false ∧
    analyze_symbol_table [] (.mk "f" .Function []
      [ .mk "#If_1" .Local [("a", ⟨"a", .Uint256, .Memory, .Declared⟩)] [],
        .mk "#Else_1" .Local [("a", ⟨"a", .Unknown, .Unknown, .Used⟩)] [] ]) ≠
      .ok () :=
  ⟨rfl, rfl, rfl, rfl,
   sibling_declaration_never_resolves [] "f" .Function []
     (.mk "#If_1" .Local [("a", ⟨"a", .Uint256, .Memory, .Declared⟩)] [])
     (.mk "#Else_1" .Local [("a", ⟨"a", .Unknown, .Unknown, .Used⟩)] [])
     "a" ⟨"a", .Unknown, .Unknown, .Used⟩ rfl rfl rfl rfl⟩

/-- The `insertIM` on a key already present (first occurring at position `i`)
replaces the value at position `i`, preserves the length, and leaves every
other position untouched. -/
theorem insertIM_existing_position (m : IndexMap) (k : String) (v : Symbol)
    (i : Nat) (old : Symbol)
    (hget : m.get? i = some (k, old))
    (hfirst : ∀ j, j < i → ∀ p, m.get? j = some p → p.1 ≠ k) :
    (insertIM m k v).get? i = some (k, v) ∧
    (insertIM m k v).length = m.length ∧
    ∀ j, j ≠ i → (insertIM m k v).get? j = m.get? j := by
  induction m generalizing i with
  | nil => simp at hget
  | cons p rest ih =>
    obtain ⟨k0, v0⟩ := p
    by_cases hk : k0 = k
    · subst hk
      cases i with
      | zero =>
        refine ⟨by simp [insertIM], by simp [insertIM], ?_⟩
        intro j hj
        cases j with
        | zero => exact absurd rfl hj
        | succ j2 => simp [insertIM]
      | succ i2 =>
        exfalso
        exact hfirst 0 (Nat.succ_pos _) (k0, v0) rfl rfl
    · cases i with
      | zero =>
        simp at hget
        exact absurd hget.1 hk
      | succ i2 =>
        simp only [List.get?] at hget
        have hfirst2 : ∀ j, j < i2 → ∀ p, rest.get? j = some p → p.1 ≠ k := by
          intro j hj p hp
          exact hfirst (j + 1) (Nat.succ_lt_succ hj) p hp
        obtain ⟨h1, h2, h3⟩ := ih i2 hget hfirst2
        have hins : insertIM ((k0, v0) :: rest) k v = (k0, v0) :: insertIM rest k v := by
          simp [insertIM, hk]
        refine ⟨?_, ?_, ?_⟩
        · rw [hins, List.get?_cons_succ]
          exact h1
        · rw [hins]
          simp [h2]
        · intro j hj
          cases j with
          | zero => rw [hins]; rfl
          | succ j2 =>
            have hne : j2 ≠ i2 := fun hc => hj (by rw [hc])
            rw [hins, List.get?_cons_succ, List.get?_cons_succ]
            exact h3 j2 hne

/-- C9: a name first recorded as `Used` in a scope and later declared in
the same scope is silently overwritten in place: the entry keeps its map
position, its role becomes `Declared`, all other entries are untouched,
and the analyzer never reports the earlier use (a `Declared` entry passes
against any stack), even when no enclosing scope declares the name; on
the concrete program `x; uint256 x;` the whole pipeline accepts and the
final tree holds the single `Declared` entry. -/
theorem use_then_declare_overwrites_in_place (b : SymbolTableBuilder)
    (nm : String) (tt : SymbolTableType) (syms : IndexMap)
    (subs rest : List SymbolTable) (x : String) (i : Nat) (old : Symbol)
    (ty : Ty) (loc : SymbolLocation)
    (hb : b.tables = .mk nm tt syms subs :: rest)
    (hget : syms.get? i = some (x, old))
    (hfirst : ∀ j, j < i → ∀ p, syms.get? j = some p → p.1 ≠ x)
    (hrole : old.role = .Used) :
    (∃ b', register_identifier b (.Identifier x) ty loc = some b' ∧
      (top_symbols b').get? i = some (x, Symbol.new x .Declared (symbol_type_of ty)
        (if loc ≠ SymbolLocation.Unknown then loc
         else default_location (symbol_type_of ty))) ∧
      (top_symbols b').length = syms.length ∧
      (∀ j, j ≠ i → (top_symbols b').get? j = syms.get? j) ∧
      (∀ stack, analyze_symbol stack (Symbol.new x .Declared (symbol_type_of ty)
        (if loc ≠ SymbolLocation.Unknown then loc
         else default_location (symbol_type_of ty))) = .ok ())) ∧
    make_symbol_tables prog_use_then_declare =
      some (.ok (.mk "#Global" .Global
        [("x", ⟨"x", .Uint256, .Memory, .Declared⟩)] [])) := by
  have hreg := register_identifier_spec b nm tt syms subs rest x ty loc hb
  obtain ⟨h1, h2, h3⟩ := insertIM_existing_position syms x
    (Symbol.new x .Declared (symbol_type_of ty)
      (if loc ≠ SymbolLocation.Unknown then loc
       else default_location (symbol_type_of ty))) i old hget hfirst
  refine ⟨⟨_, hreg, ?_, ?_, ?_, ?_⟩, rfl⟩
  · simpa [top_symbols, SymbolTable.symbols] using h1
  · simpa [top_symbols, SymbolTable.symbols] using h2
  · intro j hj
    simpa [top_symbols, SymbolTable.symbols] using h3 j hj
  · intro stack
    rfl

/-- Witness for C9 at a one-entry global scope holding `x` as `Used`. -/
theorem use_then_declare_overwrites_in_place_witness :
    (⟨[0], [0], [0], [.mk "#Global" .Global
        [("x", ⟨"x", .Unknown, .Unknown, .Used⟩)] []]⟩ : SymbolTableBuilder).tables =
      .mk "#Global" .Global [("x", ⟨"x", .Unknown, .Unknown, .Used⟩)] [] :: [] ∧
    ([("x", ⟨"x", .Unknown, .Unknown, .Used⟩)] : IndexMap).get? 0 =
      some ("x", ⟨"x", .Unknown, .Unknown, .Used⟩) ∧
    (⟨"x", .Unknown, .Unknown, .Used⟩ : Symbol).role = .Used ∧
    ∃ b', register_identifier ⟨[0], [0], [0], [.mk "#Global" .Global
        [("x", ⟨"x", .Unknown, .Unknown, .Used⟩)] []]⟩ (.Identifier "x")
        .Uint256 .Memory = some b' ∧
      (top_symbols b').get? 0 = some ("x", Symbol.new "x" .Declared
        (symbol_type_of .Uint256)
        (if SymbolLocation.Memory ≠ SymbolLocation.Unknown then .Memory
         else default_location (symbol_type_of .Uint256))) :=
  ⟨rfl, rfl, rfl,
   match use_then_declare_overwrites_in_place
     ⟨[0], [0], [0], [.mk "#Global" .Global
       [("x", ⟨"x", .Unknown, .Unknown, .Used⟩)] []]⟩
     "#Global" .Global [("x", ⟨"x", .Unknown, .Unknown, .Used⟩)] [] []
     "x" 0 ⟨"x", .Unknown, .Unknown, .Used⟩ .Uint256 .Memory rfl rfl
     (fun j hj => absurd hj (Nat.not_lt_zero j)) rfl with
   | ⟨⟨b2, hr, hp, _, _, _⟩, _⟩ => ⟨b2, hr, hp⟩⟩

/-- Counterexample for C6: at global scope, `x` is first recorded with
role `Used`; a later declaration of `x` in the same scope changes the
entry's role to `Declared` — the role recorded at creation does not
survive the build. -/
theorem role_overwritten_counterexample :
    enter_statement (enter_scope SymbolTableBuilder.new "#Global" .Global)
        (.ExpressionStatement (.Identifier "x")) .Memory =
      some ⟨[0], [0], [0],
        [.mk "#Global" .Global [("x", ⟨"x", .Unknown, .Unknown, .Used⟩)] []]⟩ ∧
    getIM (top_symbols ⟨[0], [0], [0],
        [.mk "#Global" .Global [("x", ⟨"x", .Unknown, .Unknown, .Used⟩)] []]⟩) "x" =
      some ⟨"x", .Unknown, .Unknown, .Used⟩ ∧
    enter_statement ⟨[0], [0], [0],
        [.mk "#Global" .Global [("x", ⟨"x", .Unknown, .Unknown, .Used⟩)] []]⟩
        (.InitializerStatement .Uint256 none (.Identifier "x") none) .Memory =
      some ⟨[0], [0], [0],
        [.mk "#Global" .Global [("x", ⟨"x", .Uint256, .Memory, .Declared⟩)] []]⟩ ∧
    getIM (top_symbols ⟨[0], [0], [0],
        [.mk "#Global" .Global [("x", ⟨"x", .Uint256, .Memory, .Declared⟩)] []]⟩) "x" =
      some ⟨"x", .Uint256, .Memory, .Declared⟩ :=
  ⟨rfl, rfl, rfl, rfl⟩

/-- C6 (amended): a later *reference* never alters an existing entry —
when the name is already present in the scope, `check_identifier` leaves
the builder untouched; but a later *declaration* (`register_identifier`)
unconditionally overwrites, after which the scope's entry for the name has
role `Declared`. -/
theorem reference_never_mutates_declaration_overwrites (b : SymbolTableBuilder)
    (nm : String) (tt : SymbolTableType) (syms : IndexMap)
    (subs rest : List SymbolTable)
    (hb : b.tables = .mk nm tt syms subs :: rest) :
    (∀ name, (getIM syms name).isSome = true →
       check_identifier b (.Identifier name) = some b) ∧
    (∀ x ty loc b', register_identifier b (.Identifier x) ty loc = some b' →
       ∃ sym, getIM (top_symbols b') x = some sym ∧ sym.role = .Declared) := by
  constructor
  · intro name hsome
    obtain ⟨v, hv⟩ := Option.isSome_iff_exists.mp hsome
    simp only [check_identifier, Expression.identifier_name, hb, hv]
    rfl
  · intro x ty loc b' hreg
    rw [register_identifier_spec b nm tt syms subs rest x ty loc hb] at hreg
    cases hreg
    exact ⟨Symbol.new x .Declared (symbol_type_of ty)
      (if loc ≠ SymbolLocation.Unknown then loc
       else default_location (symbol_type_of ty)),
      by simp [top_symbols, SymbolTable.symbols, getIM_insertIM_self], rfl⟩

/-- Witness for C6 (amended) at a one-entry global scope. -/
theorem reference_never_mutates_witness :
    (⟨[0], [0], [0], [.mk "#Global" .Global
        [("x", ⟨"x", .Unknown, .Unknown, .Used⟩)] []]⟩ : SymbolTableBuilder).tables =
      .mk "#Global" .Global [("x", ⟨"x", .Unknown, .Unknown, .Used⟩)] [] :: [] ∧
    (getIM [("x", ⟨"x", .Unknown, .Unknown, .Used⟩)] "x").isSome = true ∧
    check_identifier ⟨[0], [0], [0], [.mk "#Global" .Global
        [("x", ⟨"x", .Unknown, .Unknown, .Used⟩)] []]⟩ (.Identifier "x") =
      some ⟨[0], [0], [0], [.mk "#Global" .Global
        [("x", ⟨"x", .Unknown, .Unknown, .Used⟩)] []]⟩ :=
  ⟨rfl, rfl,
   (reference_never_mutates_declaration_overwrites _ "#Global" .Global
      [("x", ⟨"x", .Unknown, .Unknown, .Used⟩)] [] [] rfl).1 "x" rfl⟩

/-- Counterexample for C7: the generated names carry a leading `#`: the
two sequential ifs inside `f` produce scopes named `#If_1` and `#If_2`,
and no sibling is named `If_1` or `If_2`. -/
theorem sequential_if_names_counterexample :
    (∃ t, make_symbol_tables prog_two_contracts = some (.ok t) ∧
       scope_names_at t [0, 0] = some ["#If_1", "#If_2"]) ∧
    ("If_1" ∉ (["#If_1", "#If_2"] : List String) ∧
     "If_2" ∉ (["#If_1", "#If_2"] : List String)) :=
  ⟨⟨_, rfl, rfl⟩, by decide⟩

/-- C7 (amended): within one function scope, two sequential if statements
produce sibling scopes named `#If_1` and `#If_2`, and a nested function in
a sibling contract starts its own if counter again at `#If_1`. -/
theorem sequential_if_names_amended :
    ∃ t, make_symbol_tables prog_two_contracts = some (.ok t) ∧
      scope_names_at t [0, 0] = some ["#If_1", "#If_2"] ∧
      scope_names_at t [1, 0] = some ["#If_1"] :=
  ⟨_, rfl, rfl, rfl⟩



/-! ## Injectivity of the decimal rendering used in synthetic names -/

/-- The `toDigitsCore`'s accumulator is a suffix: it can be split off. -/
theorem toDigitsCore_acc (fuel : Nat) : ∀ (n : Nat) (ds : List Char),
    Nat.toDigitsCore 10 fuel n ds = Nat.toDigitsCore 10 fuel n [] ++ ds := by
  induction fuel with
  | zero => intro n ds; simp [Nat.toDigitsCore]
  | succ fuel ih =>
    intro n ds
    unfold Nat.toDigitsCore
    by_cases h : n / 10 = 0
    · simp [h]
    · simp only [h, if_false]
      rw [ih (n / 10) (Nat.digitChar (n % 10) :: ds),
          ih (n / 10) [Nat.digitChar (n % 10)]]
      simp

/-- With enough fuel, `toDigitsCore` computes `toDigits`. -/
theorem toDigitsCore_fuel (n : Nat) : ∀ fuel, n < fuel →
    Nat.toDigitsCore 10 fuel n [] = Nat.toDigits 10 n := by
  induction n using Nat.strong_induction_on with
  | _ n ih =>
    intro fuel hf
    cases fuel with
    | zero => exact absurd hf (Nat.not_lt_zero n)
    | succ f =>
      unfold Nat.toDigits Nat.toDigitsCore
      by_cases h : n / 10 = 0
      · simp [h]
      · simp only [h, if_false]
        have hn10 : 10 ≤ n := by
          by_contra hc
          exact h (Nat.div_eq_of_lt (Nat.lt_of_not_le hc))
        have hlt : n / 10 < n :=
          Nat.div_lt_self (Nat.lt_of_lt_of_le (by decide) hn10) (by decide)
        have hltf : n / 10 < f := Nat.lt_of_lt_of_le hlt (Nat.lt_succ_iff.mp hf)
        rw [toDigitsCore_acc f (n / 10) [Nat.digitChar (n % 10)],
            toDigitsCore_acc n (n / 10) [Nat.digitChar (n % 10)],
            ih (n / 10) hlt f hltf, ih (n / 10) hlt n hlt]

/-- The recurrence of `toDigits` for numbers of two or more digits. -/
theorem toDigits_recurrence (n : Nat) (h : ¬ n / 10 = 0) :
    Nat.toDigits 10 n = Nat.toDigits 10 (n / 10) ++ [Nat.digitChar (n % 10)] := by
  have hn10 : 10 ≤ n := by
    by_contra hc
    exact h (Nat.div_eq_of_lt (Nat.lt_of_not_le hc))
  have hlt : n / 10 < n :=
    Nat.div_lt_self (Nat.lt_of_lt_of_le (by decide) hn10) (by decide)
  conv =>
    lhs
    unfold Nat.toDigits Nat.toDigitsCore
  simp only [h, if_false]
  rw [toDigitsCore_acc n (n / 10) [Nat.digitChar (n % 10)],
      toDigitsCore_fuel (n / 10) n hlt]

/-- The `toDigits` of a one-digit number. -/
theorem toDigits_small (n : Nat) (h : n / 10 = 0) :
    Nat.toDigits 10 n = [Nat.digitChar (n % 10)] := by
  unfold Nat.toDigits Nat.toDigitsCore
  simp [h]

/-- Decoding after appending one digit character. -/
theorem decodeDigits_append (l : List Char) (c : Char) :
    decodeDigits (l ++ [c]) = decodeDigits l * 10 + (c.toNat - 48) := by
  simp [decodeDigits, List.foldl_append]

/-- The digit characters of `0`–`9` decode back to their value. -/
theorem digitChar_decode : ∀ d < 10, (Nat.digitChar d).toNat - 48 = d := by
  decide

/-- Decimal decoding inverts `toDigits`. -/
theorem decode_toDigits (n : Nat) : decodeDigits (Nat.toDigits 10 n) = n := by
  induction n using Nat.strong_induction_on with
  | _ n ih =>
    by_cases h : n / 10 = 0
    · have hn : n < 10 := by
        by_contra hc
        have : 10 ≤ n := Nat.le_of_not_lt hc
        have : 1 ≤ n / 10 := (Nat.le_div_iff_mul_le (by decide)).mpr (by omega)
        omega
      rw [toDigits_small n h]
      have hmod : n % 10 = n := Nat.mod_eq_of_lt hn
      simp [decodeDigits, hmod, digitChar_decode n hn]
    · have hn10 : 10 ≤ n := by
        by_contra hc
        exact h (Nat.div_eq_of_lt (Nat.lt_of_not_le hc))
      have hlt : n / 10 < n :=
        Nat.div_lt_self (Nat.lt_of_lt_of_le (by decide) hn10) (by decide)
      rw [toDigits_recurrence n h, decodeDigits_append, ih (n / 10) hlt,
          digitChar_decode (n % 10) (Nat.mod_lt n (by decide))]
      rw [Nat.mul_comm (n / 10) 10]
      exact Nat.div_add_mod n 10

/-- The decimal rendering of naturals is injective. -/
theorem nat_repr_injective (m n : Nat) (h : Nat.repr m = Nat.repr n) : m = n := by
  have hd : Nat.toDigits 10 m = Nat.toDigits 10 n := by
    have h2 := congrArg String.data h
    simpa [Nat.repr, List.asString] using h2
  calc m = decodeDigits (Nat.toDigits 10 m) := (decode_toDigits m).symm
    _ = decodeDigits (Nat.toDigits 10 n) := by rw [hd]
    _ = n := decode_toDigits n

/-- Appending to a common prefix is left-cancellative on strings. -/
theorem string_append_left_cancel (p a b : String) (h : p ++ a = p ++ b) :
    a = b := by
  have hd := congrArg String.data h
  simp only [String.data_append] at hd
  have h2 := List.append_cancel_left hd
  cases a
  cases b
  exact congrArg String.mk h2

/-- Two prefixed strings differ when the prefixes differ at their second
character. -/
theorem append_ne_of_second_char (p q a b : String)
    (hp : 1 < p.data.length) (hq : 1 < q.data.length)
    (hne : p.data.get? 1 ≠ q.data.get? 1) : p ++ a ≠ q ++ b := by
  intro h
  have hd := congrArg String.data h
  simp only [String.data_append] at hd
  have h1 : (p.data ++ a.data).get? 1 = p.data.get? 1 := List.get?_append hp
  have h2 : (q.data ++ b.data).get? 1 = q.data.get? 1 := List.get?_append hq
  rw [hd, h2] at h1
  exact hne h1.symm

/-- The `#If_` and `#For_` families never render the same name. -/
theorem if_ne_for (a b : String) : "#If_" ++ a ≠ "#For_" ++ b :=
  append_ne_of_second_char _ _ _ _ (by decide) (by decide) (by decide)

/-- The `#If_` and `#Compound_` families never render the same name. -/
theorem if_ne_compound (a b : String) : "#If_" ++ a ≠ "#Compound_" ++ b :=
  append_ne_of_second_char _ _ _ _ (by decide) (by decide) (by decide)

/-- The `#For_` and `#Compound_` families never render the same name. -/
theorem for_ne_compound (a b : String) : "#For_" ++ a ≠ "#Compound_" ++ b :=
  append_ne_of_second_char _ _ _ _ (by decide) (by decide) (by decide)

/-- An `#Else_` name is never an `#If_` name. -/
theorem else_ne_if (a b : String) : "#Else_" ++ a ≠ "#If_" ++ b :=
  append_ne_of_second_char _ _ _ _ (by decide) (by decide) (by decide)

/-- An `#Else_` name is never a `#For_` name. -/
theorem else_ne_for (a b : String) : "#Else_" ++ a ≠ "#For_" ++ b :=
  append_ne_of_second_char _ _ _ _ (by decide) (by decide) (by decide)

/-- An `#Else_` name is never a `#Compound_` name. -/
theorem else_ne_compound (a b : String) : "#Else_" ++ a ≠ "#Compound_" ++ b :=
  append_ne_of_second_char _ _ _ _ (by decide) (by decide) (by decide)

/-- Counter bounds are monotone. -/
theorem frame_ok_mono {cs : List SymbolTable} {ni nf nc ni2 nf2 nc2 : Nat}
    (hok : frame_ok cs ni nf nc) (h1 : ni ≤ ni2) (h2 : nf ≤ nf2)
    (h3 : nc ≤ nc2) : frame_ok cs ni2 nf2 nc2 := by
  obtain ⟨hb, hs, hg⟩ := hok
  refine ⟨fun c hc => ?_, hs, hg⟩
  obtain ⟨q1, q2, q3⟩ := hb c hc
  exact ⟨fun hl k hk => Nat.le_trans (q1 hl k hk) h1,
         fun hl k hk => Nat.le_trans (q2 hl k hk) h2,
         fun hl k hk => Nat.le_trans (q3 hl k hk) h3⟩

/-- Appending a non-`Local` (function or contract) child preserves the
frame invariant. -/
theorem frame_ok_append_nonlocal {cs : List SymbolTable} {ni nf nc : Nat}
    {c : SymbolTable} (hok : frame_ok cs ni nf nc)
    (hty : c.table_type ≠ .Local) (hgood : GoodTree c) :
    frame_ok (cs ++ [c]) ni nf nc := by
  obtain ⟨hb, hs, hg⟩ := hok
  refine ⟨?_, ?_, ?_⟩
  · intro d hd
    rcases List.mem_append.mp hd with hd | hd
    · exact hb d hd
    · simp only [List.mem_singleton] at hd
      subst hd
      exact ⟨fun hl => (hty hl).elim, fun hl => (hty hl).elim,
             fun hl => (hty hl).elim⟩
  · rw [sibs_ok, List.pairwise_append]
    refine ⟨hs, List.pairwise_singleton _ _, ?_⟩
    intro a _ d hd
    simp only [List.mem_singleton] at hd
    subst hd
    exact fun _ hl => (hty hl).elim
  · intro d hd
    rcases List.mem_append.mp hd with hd | hd
    · exact hg d hd
    · simp only [List.mem_singleton] at hd
      subst hd
      exact hgood

/-- Appending the freshly generated `#Else_` child preserves the frame
invariant (its name collides with no bounded family). -/
theorem frame_ok_append_else {cs : List SymbolTable} {ni nf nc m : Nat}
    {c : SymbolTable} (hok : frame_ok cs ni nf nc)
    (hname : c.name = "#Else_" ++ Nat.repr m) (hgood : GoodTree c) :
    frame_ok (cs ++ [c]) ni nf nc := by
  obtain ⟨hb, hs, hg⟩ := hok
  refine ⟨?_, ?_, ?_⟩
  · intro d hd
    rcases List.mem_append.mp hd with hd | hd
    · exact hb d hd
    · simp only [List.mem_singleton] at hd
      subst hd
      refine ⟨fun _ k hk => ?_, fun _ k hk => ?_, fun _ k hk => ?_⟩
      · rw [hname] at hk
        exact absurd hk (else_ne_if _ _)
      · rw [hname] at hk
        exact absurd hk (else_ne_for _ _)
      · rw [hname] at hk
        exact absurd hk (else_ne_compound _ _)
  · rw [sibs_ok, List.pairwise_append]
    refine ⟨hs, List.pairwise_singleton _ _, ?_⟩
    intro a _ d hd
    simp only [List.mem_singleton] at hd
    subst hd
    intro _ _
    refine ⟨?_, ?_, ?_⟩
    · rintro ⟨k, _, hkc⟩
      rw [hname] at hkc
      exact absurd hkc (else_ne_if _ _)
    · rintro ⟨k, _, hkc⟩
      rw [hname] at hkc
      exact absurd hkc (else_ne_for _ _)
    · rintro ⟨k, _, hkc⟩
      rw [hname] at hkc
      exact absurd hkc (else_ne_compound _ _)
  · intro d hd
    rcases List.mem_append.mp hd with hd | hd
    · exact hg d hd
    · simp only [List.mem_singleton] at hd
      subst hd
      exact hgood

/-- Appending the freshly generated `#If_` child (index one above the
current counter) preserves the frame invariant at the bumped counter. -/
theorem frame_ok_append_if {cs : List SymbolTable} {ni nf nc : Nat}
    {c : SymbolTable} (hok : frame_ok cs ni nf nc)
    (hname : c.name = "#If_" ++ Nat.repr (ni + 1)) (hgood : GoodTree c) :
    frame_ok (cs ++ [c]) (ni + 1) nf nc := by
  obtain ⟨hb, hs, hg⟩ := frame_ok_mono hok (Nat.le_succ ni) (Nat.le_refl nf)
    (Nat.le_refl nc)
  refine ⟨?_, ?_, ?_⟩
  · intro d hd
    rcases List.mem_append.mp hd with hd | hd
    · exact hb d hd
    · simp only [List.mem_singleton] at hd
      subst hd
      refine ⟨fun _ k hk => ?_, fun _ k hk => ?_, fun _ k hk => ?_⟩
      · rw [hname] at hk
        exact Nat.le_of_eq (nat_repr_injective k (ni + 1)
          (string_append_left_cancel "#If_" _ _ hk.symm))
      · rw [hname] at hk
        exact absurd hk (if_ne_for _ _)
      · rw [hname] at hk
        exact absurd hk (if_ne_compound _ _)
  · rw [sibs_ok, List.pairwise_append]
    refine ⟨hs, List.pairwise_singleton _ _, ?_⟩
    intro a ha d hd
    simp only [List.mem_singleton] at hd
    subst hd
    intro haL _
    refine ⟨?_, ?_, ?_⟩
    · rintro ⟨k, hka, hkc⟩
      rw [hname] at hkc
      have hkeq : k = ni + 1 := nat_repr_injective k (ni + 1)
        (string_append_left_cancel "#If_" _ _ hkc.symm)
      obtain ⟨q1, _, _⟩ := hok.1 a ha
      have hle : k ≤ ni := q1 haL k hka
      omega
    · rintro ⟨k, _, hkc⟩
      rw [hname] at hkc
      exact absurd hkc (if_ne_for _ _)
    · rintro ⟨k, _, hkc⟩
      rw [hname] at hkc
      exact absurd hkc (if_ne_compound _ _)
  · intro d hd
    rcases List.mem_append.mp hd with hd | hd
    · exact hg d hd
    · simp only [List.mem_singleton] at hd
      subst hd
      exact hgood

/-- The `#For_` version of `frame_ok_append_if`. -/
theorem frame_ok_append_for {cs : List SymbolTable} {ni nf nc : Nat}
    {c : SymbolTable} (hok : frame_ok cs ni nf nc)
    (hname : c.name = "#For_" ++ Nat.repr (nf + 1)) (hgood : GoodTree c) :
    frame_ok (cs ++ [c]) ni (nf + 1) nc := by
  obtain ⟨hb, hs, hg⟩ := frame_ok_mono hok (Nat.le_refl ni) (Nat.le_succ nf)
    (Nat.le_refl nc)
  refine ⟨?_, ?_, ?_⟩
  · intro d hd
    rcases List.mem_append.mp hd with hd | hd
    · exact hb d hd
    · simp only [List.mem_singleton] at hd
      subst hd
      refine ⟨fun _ k hk => ?_, fun _ k hk => ?_, fun _ k hk => ?_⟩
      · rw [hname] at hk
        exact absurd hk.symm (if_ne_for _ _)
      · rw [hname] at hk
        exact Nat.le_of_eq (nat_repr_injective k (nf + 1)
          (string_append_left_cancel "#For_" _ _ hk.symm))
      · rw [hname] at hk
        exact absurd hk (for_ne_compound _ _)
  · rw [sibs_ok, List.pairwise_append]
    refine ⟨hs, List.pairwise_singleton _ _, ?_⟩
    intro a ha d hd
    simp only [List.mem_singleton] at hd
    subst hd
    intro haL _
    refine ⟨?_, ?_, ?_⟩
    · rintro ⟨k, _, hkc⟩
      rw [hname] at hkc
      exact absurd hkc.symm (if_ne_for _ _)
    · rintro ⟨k, hka, hkc⟩
      rw [hname] at hkc
      have hkeq : k = nf + 1 := nat_repr_injective k (nf + 1)
        (string_append_left_cancel "#For_" _ _ hkc.symm)
      obtain ⟨_, q2, _⟩ := hok.1 a ha
      have hle : k ≤ nf := q2 haL k hka
      omega
    · rintro ⟨k, _, hkc⟩
      rw [hname] at hkc
      exact absurd hkc (for_ne_compound _ _)
  · intro d hd
    rcases List.mem_append.mp hd with hd | hd
    · exact hg d hd
    · simp only [List.mem_singleton] at hd
      subst hd
      exact hgood

/-- The `#Compound_` version of `frame_ok_append_if`. -/
theorem frame_ok_append_compound {cs : List SymbolTable} {ni nf nc : Nat}
    {c : SymbolTable} (hok : frame_ok cs ni nf nc)
    (hname : c.name = "#Compound_" ++ Nat.repr (nc + 1)) (hgood : GoodTree c) :
    frame_ok (cs ++ [c]) ni nf (nc + 1) := by
  obtain ⟨hb, hs, hg⟩ := frame_ok_mono hok (Nat.le_refl ni) (Nat.le_refl nf)
    (Nat.le_succ nc)
  refine ⟨?_, ?_, ?_⟩
  · intro d hd
    rcases List.mem_append.mp hd with hd | hd
    · exact hb d hd
    · simp only [List.mem_singleton] at hd
      subst hd
      refine ⟨fun _ k hk => ?_, fun _ k hk => ?_, fun _ k hk => ?_⟩
      · rw [hname] at hk
        exact absurd hk.symm (if_ne_compound _ _)
      · rw [hname] at hk
        exact absurd hk.symm (for_ne_compound _ _)
      · rw [hname] at hk
        exact Nat.le_of_eq (nat_repr_injective k (nc + 1)
          (string_append_left_cancel "#Compound_" _ _ hk.symm))
  · rw [sibs_ok, List.pairwise_append]
    refine ⟨hs, List.pairwise_singleton _ _, ?_⟩
    intro a ha d hd
    simp only [List.mem_singleton] at hd
    subst hd
    intro haL _
    refine ⟨?_, ?_, ?_⟩
    · rintro ⟨k, _, hkc⟩
      rw [hname] at hkc
      exact absurd hkc.symm (if_ne_compound _ _)
    · rintro ⟨k, _, hkc⟩
      rw [hname] at hkc
      exact absurd hkc.symm (for_ne_compound _ _)
    · rintro ⟨k, hka, hkc⟩
      rw [hname] at hkc
      have hkeq : k = nc + 1 := nat_repr_injective k (nc + 1)
        (string_append_left_cancel "#Compound_" _ _ hkc.symm)
      obtain ⟨_, _, q3⟩ := hok.1 a ha
      have hle : k ≤ nc := q3 haL k hka
      omega
  · intro d hd
    rcases List.mem_append.mp hd with hd | hd
    · exact hg d hd
    · simp only [List.mem_singleton] at hd
      subst hd
      exact hgood

/-- An expression whose `identifier_name` is `some` is a bare identifier. -/
theorem identifier_name_isSome (e : Expression)
    (h : e.identifier_name.isSome = true) : ∃ name, e = .Identifier name := by
  cases e <;> first
    | exact ⟨_, rfl⟩
    | simp [Expression.identifier_name] at h

/-- The empty child list satisfies any frame invariant. -/
theorem frame_ok_nil {ni nf nc : Nat} : frame_ok [] ni nf nc :=
  ⟨fun c hc => absurd hc (List.not_mem_nil c), List.Pairwise.nil,
   fun c hc => absurd hc (List.not_mem_nil c)⟩

/-- The function `check_identifier` on a bare identifier with an open
scope never panics and only touches the top scope's symbol map. -/
theorem check_identifier_wf (v : String) (ni nf nc : Nat) (is fs cs : List Nat)
    (tn : String) (tt : SymbolTableType) (tsyms : IndexMap)
    (tsubs rest : List SymbolTable) :
    ∃ tsyms2, check_identifier ⟨ni :: is, nf :: fs, nc :: cs,
        .mk tn tt tsyms tsubs :: rest⟩ (.Identifier v) =
      some ⟨ni :: is, nf :: fs, nc :: cs, .mk tn tt tsyms2 tsubs :: rest⟩ := by
  by_cases hg : (getIM tsyms v).isNone = true
  · refine ⟨insertIM tsyms v (Symbol.new v .Used .Unknown .Unknown), ?_⟩
    rw [show check_identifier ⟨ni :: is, nf :: fs, nc :: cs,
          .mk tn tt tsyms tsubs :: rest⟩ (.Identifier v) =
        (if (getIM tsyms v).isNone = true
         then some ⟨ni :: is, nf :: fs, nc :: cs, .mk tn tt
           (insertIM tsyms v (Symbol.new v .Used .Unknown .Unknown)) tsubs :: rest⟩
         else some ⟨ni :: is, nf :: fs, nc :: cs,
           .mk tn tt tsyms tsubs :: rest⟩) from rfl, if_pos hg]
  · refine ⟨tsyms, ?_⟩
    rw [show check_identifier ⟨ni :: is, nf :: fs, nc :: cs,
          .mk tn tt tsyms tsubs :: rest⟩ (.Identifier v) =
        (if (getIM tsyms v).isNone = true
         then some ⟨ni :: is, nf :: fs, nc :: cs, .mk tn tt
           (insertIM tsyms v (Symbol.new v .Used .Unknown .Unknown)) tsubs :: rest⟩
         else some ⟨ni :: is, nf :: fs, nc :: cs,
           .mk tn tt tsyms tsubs :: rest⟩) from rfl, if_neg hg]


mutual
/-- Master induction: on a well-formed statement the builder never panics,
restores the surrounding stack, only grows the current frame's counters,
and preserves the frame invariant. -/
theorem enter_statement_wf (stmt : Statement) :
    ∀ (loc : SymbolLocation) (ni nf nc : Nat) (is fs cs : List Nat)
      (tn : String) (tt : SymbolTableType) (tsyms : IndexMap)
      (tsubs rest : List SymbolTable),
      frame_ok tsubs ni nf nc →
      wf_statement stmt = true →
      ∃ tsyms2 tsubs2 ni2 nf2 nc2,
        enter_statement ⟨ni :: is, nf :: fs, nc :: cs,
            .mk tn tt tsyms tsubs :: rest⟩ stmt loc =
          some ⟨ni2 :: is, nf2 :: fs, nc2 :: cs,
            .mk tn tt tsyms2 tsubs2 :: rest⟩ ∧
        ni ≤ ni2 ∧ nf ≤ nf2 ∧ nc ≤ nc2 ∧ frame_ok tsubs2 ni2 nf2 nc2 := by
  cases stmt with
  | ExpressionStatement e =>
    intro loc ni nf nc is fs cs tn tt tsyms tsubs rest hok hwf
    exact enter_expression_wf e ni nf nc is fs cs tn tt tsyms tsubs rest hok hwf
  | FunctionStatement fn params stmt =>
    intro loc ni nf nc is fs cs tn tt tsyms tsubs rest hok hwf
    have hwf2 : (fn.identifier_name.isSome && wf_expression params &&
        wf_statement stmt) = true := hwf
    simp only [Bool.and_eq_true] at hwf2
    obtain ⟨⟨h1, h2⟩, h3⟩ := hwf2
    obtain ⟨name, rfl⟩ := identifier_name_isSome fn h1
    obtain ⟨ps2, pb2, i2, f2, c2, hparams, _, _, _, hok2⟩ :=
      enter_expression_wf params 0 0 0 (ni :: is) (nf :: fs) (nc :: cs)
        name .Function [] []
        (SymbolTable.mk tn tt (insertIM tsyms name
          (Symbol.new name .Declared .Function .Storage)) tsubs :: rest)
        frame_ok_nil h2
    obtain ⟨ps3, pb3, i3, f3, c3, hblock, _, _, _, hok3⟩ :=
      enter_block_wf stmt .Unknown i2 f2 c2 (ni :: is) (nf :: fs) (nc :: cs)
        name .Function ps2 pb2
        (SymbolTable.mk tn tt (insertIM tsyms name
          (Symbol.new name .Declared .Function .Storage)) tsubs :: rest)
        hok2 h3
    refine ⟨insertIM tsyms name (Symbol.new name .Declared .Function .Storage),
      tsubs ++ [.mk name .Function ps3 pb3], ni, nf, nc, ?_,
      Nat.le_refl _, Nat.le_refl _, Nat.le_refl _,
      frame_ok_append_nonlocal hok (fun h => SymbolTableType.noConfusion h)
        (GoodTree.mk _ _ _ _ hok3.2.1 hok3.2.2)⟩
    rw [show enter_statement ⟨ni :: is, nf :: fs, nc :: cs,
          .mk tn tt tsyms tsubs :: rest⟩
          (.FunctionStatement (.Identifier name) params stmt) loc =
        (match enter_expression ⟨0 :: ni :: is, 0 :: nf :: fs, 0 :: nc :: cs,
            .mk name .Function [] [] ::
            .mk tn tt (insertIM tsyms name
              (Symbol.new name .Declared .Function .Storage)) tsubs :: rest⟩
            params with
         | none => none
         | some b2 =>
           match enter_block b2 stmt .Unknown with
           | none => none
           | some b3 => exit_scope b3) from rfl]
    simp only [hparams, hblock]
    rfl
  | ContractStatement cn members =>
    intro loc ni nf nc is fs cs tn tt tsyms tsubs rest hok hwf
    have hwf2 : (cn.identifier_name.isSome && wf_statement members) = true := hwf
    simp only [Bool.and_eq_true] at hwf2
    obtain ⟨h1, h2⟩ := hwf2
    obtain ⟨name, rfl⟩ := identifier_name_isSome cn h1
    obtain ⟨ps2, pb2, i2, f2, c2, hmem, _, _, _, hok2⟩ :=
      enter_statement_wf members loc 0 0 0 (ni :: is) (nf :: fs) (nc :: cs)
        name .Contract [] []
        (SymbolTable.mk tn tt (insertIM tsyms name
          (Symbol.new name .Declared .Contract .Storage)) tsubs :: rest)
        frame_ok_nil h2
    refine ⟨insertIM tsyms name (Symbol.new name .Declared .Contract .Storage),
      tsubs ++ [.mk name .Contract ps2 pb2], ni, nf, nc, ?_,
      Nat.le_refl _, Nat.le_refl _, Nat.le_refl _,
      frame_ok_append_nonlocal hok (fun h => SymbolTableType.noConfusion h)
        (GoodTree.mk _ _ _ _ hok2.2.1 hok2.2.2)⟩
    rw [show enter_statement ⟨ni :: is, nf :: fs, nc :: cs,
          .mk tn tt tsyms tsubs :: rest⟩
          (.ContractStatement (.Identifier name) members) loc =
        (match enter_statement ⟨0 :: ni :: is, 0 :: nf :: fs, 0 :: nc :: cs,
            .mk name .Contract [] [] ::
            .mk tn tt (insertIM tsyms name
              (Symbol.new name .Declared .Contract .Storage)) tsubs :: rest⟩
            members loc with
         | none => none
         | some b2 => exit_scope b2) from rfl]
    simp only [hmem]
    rfl
  | InitializerStatement ty dloc var dflt =>
    intro loc ni nf nc is fs cs tn tt tsyms tsubs rest hok hwf
    cases dloc with
    | none =>
      cases dflt with
      | none =>
        have hwf2 : (var.identifier_name.isSome && true) = true := hwf
        simp only [Bool.and_eq_true] at hwf2
        obtain ⟨x, rfl⟩ := identifier_name_isSome var hwf2.1
        exact ⟨insertIM tsyms x (Symbol.new x .Declared (symbol_type_of ty)
            (if loc ≠ SymbolLocation.Unknown then loc
             else default_location (symbol_type_of ty))), tsubs, ni, nf, nc,
          rfl, Nat.le_refl _, Nat.le_refl _, Nat.le_refl _, hok⟩
      | some e =>
        have hwf2 : (var.identifier_name.isSome && wf_expression e)
            = true := hwf
        simp only [Bool.and_eq_true] at hwf2
        obtain ⟨x, rfl⟩ := identifier_name_isSome var hwf2.1
        obtain ⟨ts2, tb2, a2, b2, c2, hexp, m1, m2, m3, hok2⟩ :=
          enter_expression_wf e ni nf nc is fs cs tn tt
            (insertIM tsyms x (Symbol.new x .Declared (symbol_type_of ty)
              (if loc ≠ SymbolLocation.Unknown then loc
               else default_location (symbol_type_of ty)))) tsubs rest hok
            hwf2.2
        refine ⟨ts2, tb2, a2, b2, c2, ?_, m1, m2, m3, hok2⟩
        rw [show enter_statement ⟨ni :: is, nf :: fs, nc :: cs,
              .mk tn tt tsyms tsubs :: rest⟩
              (.InitializerStatement ty none (.Identifier x) (some e)) loc =
            enter_expression ⟨ni :: is, nf :: fs, nc :: cs,
              .mk tn tt (insertIM tsyms x (Symbol.new x .Declared
                (symbol_type_of ty)
                (if loc ≠ SymbolLocation.Unknown then loc
                 else default_location (symbol_type_of ty)))) tsubs :: rest⟩ e
            from rfl]
        exact hexp
    | some spec =>
      cases dflt with
      | none =>
        have hwf2 : (var.identifier_name.isSome && true) = true := hwf
        simp only [Bool.and_eq_true] at hwf2
        obtain ⟨x, rfl⟩ := identifier_name_isSome var hwf2.1
        exact ⟨insertIM tsyms x (Symbol.new x .Declared (symbol_type_of ty)
            (if specifier_location spec ≠ SymbolLocation.Unknown
             then specifier_location spec
             else default_location (symbol_type_of ty))), tsubs, ni, nf, nc,
          rfl, Nat.le_refl _, Nat.le_refl _, Nat.le_refl _, hok⟩
      | some e =>
        have hwf2 : (var.identifier_name.isSome && wf_expression e)
            = true := hwf
        simp only [Bool.and_eq_true] at hwf2
        obtain ⟨x, rfl⟩ := identifier_name_isSome var hwf2.1
        obtain ⟨ts2, tb2, a2, b2, c2, hexp, m1, m2, m3, hok2⟩ :=
          enter_expression_wf e ni nf nc is fs cs tn tt
            (insertIM tsyms x (Symbol.new x .Declared (symbol_type_of ty)
              (if specifier_location spec ≠ SymbolLocation.Unknown
               then specifier_location spec
               else default_location (symbol_type_of ty)))) tsubs rest hok
            hwf2.2
        refine ⟨ts2, tb2, a2, b2, c2, ?_, m1, m2, m3, hok2⟩
        rw [show enter_statement ⟨ni :: is, nf :: fs, nc :: cs,
              .mk tn tt tsyms tsubs :: rest⟩
              (.InitializerStatement ty (some spec) (.Identifier x) (some e))
              loc =
            enter_expression ⟨ni :: is, nf :: fs, nc :: cs,
              .mk tn tt (insertIM tsyms x (Symbol.new x .Declared
                (symbol_type_of ty)
                (if specifier_location spec ≠ SymbolLocation.Unknown
                 then specifier_location spec
                 else default_location (symbol_type_of ty)))) tsubs :: rest⟩ e
            from rfl]
        exact hexp
  | CompoundStatement stmts ret =>
    intro loc ni nf nc is fs cs tn tt tsyms tsubs rest hok hwf
    cases ret with
    | none =>
      have hwf2 : (wf_statements stmts && true) = true := hwf
      simp only [Bool.and_eq_true] at hwf2
      obtain ⟨ps2, pb2, i2, f2, c2, hstmts, _, _, _, hok2⟩ :=
        enter_statements_wf stmts loc 0 0 0 (ni :: is) (nf :: fs)
          ((nc + 1) :: cs) ("#Compound_" ++ toString (nc + 1)) .Local [] []
          (SymbolTable.mk tn tt tsyms tsubs :: rest) frame_ok_nil hwf2.1
      refine ⟨tsyms,
        tsubs ++ [.mk ("#Compound_" ++ toString (nc + 1)) .Local ps2 pb2],
        ni, nf, nc + 1, ?_, Nat.le_refl _, Nat.le_refl _, Nat.le_succ _,
        frame_ok_append_compound hok
          (show (SymbolTable.mk ("#Compound_" ++ toString (nc + 1))
            SymbolTableType.Local ps2 pb2).name =
            "#Compound_" ++ Nat.repr (nc + 1) from rfl)
          (GoodTree.mk _ _ _ _ hok2.2.1 hok2.2.2)⟩
      rw [show enter_statement ⟨ni :: is, nf :: fs, nc :: cs,
            .mk tn tt tsyms tsubs :: rest⟩ (.CompoundStatement stmts none) loc =
          (match enter_statements ⟨0 :: ni :: is, 0 :: nf :: fs,
              0 :: (nc + 1) :: cs,
              .mk ("#Compound_" ++ toString (nc + 1)) .Local [] [] ::
              .mk tn tt tsyms tsubs :: rest⟩ stmts loc with
           | none => none
           | some b2 => exit_scope b2) from rfl]
      simp only [hstmts]
      rfl
    | some e2 =>
      have hwf2 : (wf_statements stmts && wf_expression e2) = true := hwf
      simp only [Bool.and_eq_true] at hwf2
      obtain ⟨ps2, pb2, i2, f2, c2, hstmts, _, _, _, hok2⟩ :=
        enter_statements_wf stmts loc 0 0 0 (ni :: is) (nf :: fs)
          ((nc + 1) :: cs) ("#Compound_" ++ toString (nc + 1)) .Local [] []
          (SymbolTable.mk tn tt tsyms tsubs :: rest) frame_ok_nil hwf2.1
      obtain ⟨ps3, pb3, i3, f3, c3, hexp, _, _, _, hok3⟩ :=
        enter_expression_wf e2 i2 f2 c2 (ni :: is) (nf :: fs) ((nc + 1) :: cs)
          ("#Compound_" ++ toString (nc + 1)) .Local ps2 pb2
          (SymbolTable.mk tn tt tsyms tsubs :: rest) hok2 hwf2.2
      refine ⟨tsyms,
        tsubs ++ [.mk ("#Compound_" ++ toString (nc + 1)) .Local ps3 pb3],
        ni, nf, nc + 1, ?_, Nat.le_refl _, Nat.le_refl _, Nat.le_succ _,
        frame_ok_append_compound hok
          (show (SymbolTable.mk ("#Compound_" ++ toString (nc + 1))
            SymbolTableType.Local ps3 pb3).name =
            "#Compound_" ++ Nat.repr (nc + 1) from rfl)
          (GoodTree.mk _ _ _ _ hok3.2.1 hok3.2.2)⟩
      rw [show enter_statement ⟨ni :: is, nf :: fs, nc :: cs,
            .mk tn tt tsyms tsubs :: rest⟩
            (.CompoundStatement stmts (some e2)) loc =
          (match enter_statements ⟨0 :: ni :: is, 0 :: nf :: fs,
              0 :: (nc + 1) :: cs,
              .mk ("#Compound_" ++ toString (nc + 1)) .Local [] [] ::
              .mk tn tt tsyms tsubs :: rest⟩ stmts loc with
           | none => none
           | some b2 =>
             match enter_expression b2 e2 with
             | none => none
             | some b3 => exit_scope b3) from rfl]
      simp only [hstmts, hexp]
      rfl
  | MemberStatement ms =>
    intro loc ni nf nc is fs cs tn tt tsyms tsubs rest hok hwf
    exact enter_statements_wf ms .Storage ni nf nc is fs cs tn tt tsyms tsubs
      rest hok hwf

/-- Master induction, statement-list form. -/
theorem enter_statements_wf (stmts : List Statement) :
    ∀ (loc : SymbolLocation) (ni nf nc : Nat) (is fs cs : List Nat)
      (tn : String) (tt : SymbolTableType) (tsyms : IndexMap)
      (tsubs rest : List SymbolTable),
      frame_ok tsubs ni nf nc →
      wf_statements stmts = true →
      ∃ tsyms2 tsubs2 ni2 nf2 nc2,
        enter_statements ⟨ni :: is, nf :: fs, nc :: cs,
            .mk tn tt tsyms tsubs :: rest⟩ stmts loc =
          some ⟨ni2 :: is, nf2 :: fs, nc2 :: cs,
            .mk tn tt tsyms2 tsubs2 :: rest⟩ ∧
        ni ≤ ni2 ∧ nf ≤ nf2 ∧ nc ≤ nc2 ∧ frame_ok tsubs2 ni2 nf2 nc2 := by
  cases stmts with
  | nil =>
    intro loc ni nf nc is fs cs tn tt tsyms tsubs rest hok _
    exact ⟨tsyms, tsubs, ni, nf, nc, rfl, Nat.le_refl _, Nat.le_refl _,
      Nat.le_refl _, hok⟩
  | cons s rest2 =>
    intro loc ni nf nc is fs cs tn tt tsyms tsubs rest hok hwf
    have hwf2 : (wf_statement s && wf_statements rest2) = true := hwf
    simp only [Bool.and_eq_true] at hwf2
    obtain ⟨h1, h2⟩ := hwf2
    obtain ⟨ts1, tb1, a1, b1, c1, he1, l1, l2, l3, hok1⟩ :=
      enter_statement_wf s loc ni nf nc is fs cs tn tt tsyms tsubs rest hok h1
    obtain ⟨ts2, tb2, a2, b2, c2, he2, m1, m2, m3, hok2⟩ :=
      enter_statements_wf rest2 loc a1 b1 c1 is fs cs tn tt ts1 tb1 rest hok1 h2
    refine ⟨ts2, tb2, a2, b2, c2, ?_, Nat.le_trans l1 m1, Nat.le_trans l2 m2,
      Nat.le_trans l3 m3, hok2⟩
    rw [show enter_statements ⟨ni :: is, nf :: fs, nc :: cs,
          .mk tn tt tsyms tsubs :: rest⟩ (s :: rest2) loc =
        (match enter_statement ⟨ni :: is, nf :: fs, nc :: cs,
            .mk tn tt tsyms tsubs :: rest⟩ s loc with
         | none => none
         | some b1 => enter_statements b1 rest2 loc) from rfl]
    simp only [he1, he2]

/-- Master induction, block form (a compound's contents are visited in the
current scope; any other statement is left untouched). -/
theorem enter_block_wf (compound : Statement) :
    ∀ (loc : SymbolLocation) (ni nf nc : Nat) (is fs cs : List Nat)
      (tn : String) (tt : SymbolTableType) (tsyms : IndexMap)
      (tsubs rest : List SymbolTable),
      frame_ok tsubs ni nf nc →
      wf_statement compound = true →
      ∃ tsyms2 tsubs2 ni2 nf2 nc2,
        enter_block ⟨ni :: is, nf :: fs, nc :: cs,
            .mk tn tt tsyms tsubs :: rest⟩ compound loc =
          some ⟨ni2 :: is, nf2 :: fs, nc2 :: cs,
            .mk tn tt tsyms2 tsubs2 :: rest⟩ ∧
        ni ≤ ni2 ∧ nf ≤ nf2 ∧ nc ≤ nc2 ∧ frame_ok tsubs2 ni2 nf2 nc2 := by
  cases compound with
  | CompoundStatement stmts ret =>
    intro loc ni nf nc is fs cs tn tt tsyms tsubs rest hok hwf
    cases ret with
    | none =>
      have hwf2 : (wf_statements stmts && true) = true := hwf
      simp only [Bool.and_eq_true] at hwf2
      obtain ⟨ts1, tb1, a1, b1, c1, he1, l1, l2, l3, hok1⟩ :=
        enter_statements_wf stmts loc ni nf nc is fs cs tn tt tsyms tsubs rest
          hok hwf2.1
      refine ⟨ts1, tb1, a1, b1, c1, ?_, l1, l2, l3, hok1⟩
      rw [show enter_block ⟨ni :: is, nf :: fs, nc :: cs,
            .mk tn tt tsyms tsubs :: rest⟩ (.CompoundStatement stmts none) loc =
          (match enter_statements ⟨ni :: is, nf :: fs, nc :: cs,
              .mk tn tt tsyms tsubs :: rest⟩ stmts loc with
           | none => none
           | some b1 => some b1) from rfl]
      simp only [he1]
    | some e2 =>
      have hwf2 : (wf_statements stmts && wf_expression e2) = true := hwf
      simp only [Bool.and_eq_true] at hwf2
      obtain ⟨ts1, tb1, a1, b1, c1, he1, l1, l2, l3, hok1⟩ :=
        enter_statements_wf stmts loc ni nf nc is fs cs tn tt tsyms tsubs rest
          hok hwf2.1
      obtain ⟨ts2, tb2, a2, b2, c2, he2, m1, m2, m3, hok2⟩ :=
        enter_expression_wf e2 a1 b1 c1 is fs cs tn tt ts1 tb1 rest hok1
          hwf2.2
      refine ⟨ts2, tb2, a2, b2, c2, ?_, Nat.le_trans l1 m1, Nat.le_trans l2 m2,
        Nat.le_trans l3 m3, hok2⟩
      rw [show enter_block ⟨ni :: is, nf :: fs, nc :: cs,
            .mk tn tt tsyms tsubs :: rest⟩
            (.CompoundStatement stmts (some e2)) loc =
          (match enter_statements ⟨ni :: is, nf :: fs, nc :: cs,
              .mk tn tt tsyms tsubs :: rest⟩ stmts loc with
           | none => none
           | some b1 => enter_expression b1 e2) from rfl]
      simp only [he1, he2]
  | ExpressionStatement e =>
    intro loc ni nf nc is fs cs tn tt tsyms tsubs rest hok _
    exact ⟨tsyms, tsubs, ni, nf, nc, rfl, Nat.le_refl _, Nat.le_refl _,
      Nat.le_refl _, hok⟩
  | FunctionStatement fn params stmt =>
    intro loc ni nf nc is fs cs tn tt tsyms tsubs rest hok _
    exact ⟨tsyms, tsubs, ni, nf, nc, rfl, Nat.le_refl _, Nat.le_refl _,
      Nat.le_refl _, hok⟩
  | ContractStatement cn members =>
    intro loc ni nf nc is fs cs tn tt tsyms tsubs rest hok _
    exact ⟨tsyms, tsubs, ni, nf, nc, rfl, Nat.le_refl _, Nat.le_refl _,
      Nat.le_refl _, hok⟩
  | InitializerStatement ty dloc var dflt =>
    intro loc ni nf nc is fs cs tn tt tsyms tsubs rest hok _
    exact ⟨tsyms, tsubs, ni, nf, nc, rfl, Nat.le_refl _, Nat.le_refl _,
      Nat.le_refl _, hok⟩
  | MemberStatement ms =>
    intro loc ni nf nc is fs cs tn tt tsyms tsubs rest hok _
    exact ⟨tsyms, tsubs, ni, nf, nc, rfl, Nat.le_refl _, Nat.le_refl _,
      Nat.le_refl _, hok⟩

/-- Master induction, expression form. -/
theorem enter_expression_wf (e : Expression) :
    ∀ (ni nf nc : Nat) (is fs cs : List Nat)
      (tn : String) (tt : SymbolTableType) (tsyms : IndexMap)
      (tsubs rest : List SymbolTable),
      frame_ok tsubs ni nf nc →
      wf_expression e = true →
      ∃ tsyms2 tsubs2 ni2 nf2 nc2,
        enter_expression ⟨ni :: is, nf :: fs, nc :: cs,
            .mk tn tt tsyms tsubs :: rest⟩ e =
          some ⟨ni2 :: is, nf2 :: fs, nc2 :: cs,
            .mk tn tt tsyms2 tsubs2 :: rest⟩ ∧
        ni ≤ ni2 ∧ nf ≤ nf2 ∧ nc ≤ nc2 ∧ frame_ok tsubs2 ni2 nf2 nc2 := by
  cases e with
  | AssignExpression l r =>
    intro ni nf nc is fs cs tn tt tsyms tsubs rest hok hwf
    have hwf2 : (wf_expression l && wf_expression r) = true := hwf
    simp only [Bool.and_eq_true] at hwf2
    obtain ⟨h1, h2⟩ := hwf2
    obtain ⟨ts1, tb1, a1, b1, c1, he1, l1, l2, l3, hok1⟩ :=
      enter_expression_wf l ni nf nc is fs cs tn tt tsyms tsubs rest hok h1
    obtain ⟨ts2, tb2, a2, b2, c2, he2, m1, m2, m3, hok2⟩ :=
      enter_expression_wf r a1 b1 c1 is fs cs tn tt ts1 tb1 rest hok1 h2
    refine ⟨ts2, tb2, a2, b2, c2, ?_, Nat.le_trans l1 m1, Nat.le_trans l2 m2,
      Nat.le_trans l3 m3, hok2⟩
    rw [show enter_expression ⟨ni :: is, nf :: fs, nc :: cs,
          .mk tn tt tsyms tsubs :: rest⟩ (.AssignExpression l r) =
        (match enter_expression ⟨ni :: is, nf :: fs, nc :: cs,
            .mk tn tt tsyms tsubs :: rest⟩ l with
         | none => none
         | some b1 => enter_expression b1 r) from rfl]
    simp only [he1, he2]
  | TernaryExpression c e1 e2 =>
    intro ni nf nc is fs cs tn tt tsyms tsubs rest hok hwf
    have hwf2 : (wf_expression c && wf_expression e1 && wf_expression e2)
        = true := hwf
    simp only [Bool.and_eq_true] at hwf2
    obtain ⟨⟨h1, h2⟩, h3⟩ := hwf2
    obtain ⟨ts1, tb1, a1, b1, c1, he1, l1, l2, l3, hok1⟩ :=
      enter_expression_wf c ni nf nc is fs cs tn tt tsyms tsubs rest hok h1
    obtain ⟨ts2, tb2, a2, b2, c2, he2, m1, m2, m3, hok2⟩ :=
      enter_expression_wf e1 a1 b1 c1 is fs cs tn tt ts1 tb1 rest hok1 h2
    obtain ⟨ts3, tb3, a3, b3, c3, he3, q1, q2, q3, hok3⟩ :=
      enter_expression_wf e2 a2 b2 c2 is fs cs tn tt ts2 tb2 rest hok2 h3
    refine ⟨ts3, tb3, a3, b3, c3, ?_,
      Nat.le_trans l1 (Nat.le_trans m1 q1),
      Nat.le_trans l2 (Nat.le_trans m2 q2),
      Nat.le_trans l3 (Nat.le_trans m3 q3), hok3⟩
    rw [show enter_expression ⟨ni :: is, nf :: fs, nc :: cs,
          .mk tn tt tsyms tsubs :: rest⟩ (.TernaryExpression c e1 e2) =
        (match enter_expression ⟨ni :: is, nf :: fs, nc :: cs,
            .mk tn tt tsyms tsubs :: rest⟩ c with
         | none => none
         | some b1 =>
           match enter_expression b1 e1 with
           | none => none
           | some b2 => enter_expression b2 e2) from rfl]
    simp only [he1, he2, he3]
  | BinaryExpression l r =>
    intro ni nf nc is fs cs tn tt tsyms tsubs rest hok hwf
    have hwf2 : (wf_expression l && wf_expression r) = true := hwf
    simp only [Bool.and_eq_true] at hwf2
    obtain ⟨h1, h2⟩ := hwf2
    obtain ⟨ts1, tb1, a1, b1, c1, he1, l1, l2, l3, hok1⟩ :=
      enter_expression_wf l ni nf nc is fs cs tn tt tsyms tsubs rest hok h1
    obtain ⟨ts2, tb2, a2, b2, c2, he2, m1, m2, m3, hok2⟩ :=
      enter_expression_wf r a1 b1 c1 is fs cs tn tt ts1 tb1 rest hok1 h2
    refine ⟨ts2, tb2, a2, b2, c2, ?_, Nat.le_trans l1 m1, Nat.le_trans l2 m2,
      Nat.le_trans l3 m3, hok2⟩
    rw [show enter_expression ⟨ni :: is, nf :: fs, nc :: cs,
          .mk tn tt tsyms tsubs :: rest⟩ (.BinaryExpression l r) =
        (match enter_expression ⟨ni :: is, nf :: fs, nc :: cs,
            .mk tn tt tsyms tsubs :: rest⟩ l with
         | none => none
         | some b1 => enter_expression b1 r) from rfl]
    simp only [he1, he2]
  | FunctionCallExpression f args =>
    intro ni nf nc is fs cs tn tt tsyms tsubs rest hok hwf
    have hwf2 : (wf_expression f && wf_expression args) = true := hwf
    simp only [Bool.and_eq_true] at hwf2
    obtain ⟨h1, h2⟩ := hwf2
    obtain ⟨ts1, tb1, a1, b1, c1, he1, l1, l2, l3, hok1⟩ :=
      enter_expression_wf f ni nf nc is fs cs tn tt tsyms tsubs rest hok h1
    obtain ⟨ts2, tb2, a2, b2, c2, he2, m1, m2, m3, hok2⟩ :=
      enter_expression_wf args a1 b1 c1 is fs cs tn tt ts1 tb1 rest hok1 h2
    refine ⟨ts2, tb2, a2, b2, c2, ?_, Nat.le_trans l1 m1, Nat.le_trans l2 m2,
      Nat.le_trans l3 m3, hok2⟩
    rw [show enter_expression ⟨ni :: is, nf :: fs, nc :: cs,
          .mk tn tt tsyms tsubs :: rest⟩ (.FunctionCallExpression f args) =
        (match enter_expression ⟨ni :: is, nf :: fs, nc :: cs,
            .mk tn tt tsyms tsubs :: rest⟩ f with
         | none => none
         | some b1 => enter_expression b1 args) from rfl]
    simp only [he1, he2]
  | IfExpression cond ifstmt elstmt =>
    intro ni nf nc is fs cs tn tt tsyms tsubs rest hok hwf
    cases elstmt with
    | none =>
      have hwf2 : (wf_expression cond && wf_statement ifstmt && true)
          = true := hwf
      simp only [Bool.and_eq_true] at hwf2
      obtain ⟨ts1, tb1, i1, f1, c1, hcond, l1, l2, l3, hok1⟩ :=
        enter_expression_wf cond ni nf nc is fs cs tn tt tsyms tsubs rest hok
          hwf2.1.1
      obtain ⟨ps2, pb2, i2, f2, c2, hblock, _, _, _, hok2⟩ :=
        enter_block_wf ifstmt .Unknown 0 0 0 ((i1 + 1) :: is) (f1 :: fs)
          (c1 :: cs) ("#If_" ++ toString (i1 + 1)) .Local [] []
          (SymbolTable.mk tn tt ts1 tb1 :: rest) frame_ok_nil hwf2.1.2
      have hexit1 : exit_scope ⟨i2 :: (i1 + 1) :: is, f2 :: f1 :: fs,
          c2 :: c1 :: cs,
          .mk ("#If_" ++ toString (i1 + 1)) .Local ps2 pb2 ::
          .mk tn tt ts1 tb1 :: rest⟩ =
          some ⟨(i1 + 1) :: is, f1 :: fs, c1 :: cs,
            .mk tn tt ts1 (tb1 ++
              [.mk ("#If_" ++ toString (i1 + 1)) .Local ps2 pb2]) :: rest⟩ :=
        rfl
      refine ⟨ts1, tb1 ++ [.mk ("#If_" ++ toString (i1 + 1)) .Local ps2 pb2],
        i1 + 1, f1, c1, ?_, Nat.le_trans l1 (Nat.le_succ _), l2, l3,
        frame_ok_append_if hok1
          (show (SymbolTable.mk ("#If_" ++ toString (i1 + 1))
            SymbolTableType.Local ps2 pb2).name =
            "#If_" ++ Nat.repr (i1 + 1) from rfl)
          (GoodTree.mk _ _ _ _ hok2.2.1 hok2.2.2)⟩
      rw [show enter_expression ⟨ni :: is, nf :: fs, nc :: cs,
            .mk tn tt tsyms tsubs :: rest⟩ (.IfExpression cond ifstmt none) =
          (match enter_expression ⟨ni :: is, nf :: fs, nc :: cs,
              .mk tn tt tsyms tsubs :: rest⟩ cond with
           | none => none
           | some b1 =>
             match b1.if_num with
             | [] => none
             | n :: is2 =>
               match enter_block (enter_scope ⟨(n + 1) :: is2, b1.for_num,
                   b1.compound_num, b1.tables⟩
                   ("#If_" ++ toString (n + 1)) .Local) ifstmt .Unknown with
               | none => none
               | some b3 =>
                 match exit_scope b3 with
                 | none => none
                 | some b4 => some b4) from rfl]
      simp only [hcond, enter_scope, hblock, hexit1]
    | some el =>
      have hwf2 : (wf_expression cond && wf_statement ifstmt &&
          wf_statement el) = true := hwf
      simp only [Bool.and_eq_true] at hwf2
      obtain ⟨ts1, tb1, i1, f1, c1, hcond, l1, l2, l3, hok1⟩ :=
        enter_expression_wf cond ni nf nc is fs cs tn tt tsyms tsubs rest hok
          hwf2.1.1
      obtain ⟨ps2, pb2, i2, f2, c2, hblock, _, _, _, hok2⟩ :=
        enter_block_wf ifstmt .Unknown 0 0 0 ((i1 + 1) :: is) (f1 :: fs)
          (c1 :: cs) ("#If_" ++ toString (i1 + 1)) .Local [] []
          (SymbolTable.mk tn tt ts1 tb1 :: rest) frame_ok_nil hwf2.1.2
      have hexit1 : exit_scope ⟨i2 :: (i1 + 1) :: is, f2 :: f1 :: fs,
          c2 :: c1 :: cs,
          .mk ("#If_" ++ toString (i1 + 1)) .Local ps2 pb2 ::
          .mk tn tt ts1 tb1 :: rest⟩ =
          some ⟨(i1 + 1) :: is, f1 :: fs, c1 :: cs,
            .mk tn tt ts1 (tb1 ++
              [.mk ("#If_" ++ toString (i1 + 1)) .Local ps2 pb2]) :: rest⟩ :=
        rfl
      obtain ⟨ps3, pb3, i3, f3, c3, hblock2, _, _, _, hok3⟩ :=
        enter_block_wf el .Unknown 0 0 0 ((i1 + 1) :: is) (f1 :: fs) (c1 :: cs)
          ("#Else_" ++ toString (i1 + 1)) .Local [] []
          (SymbolTable.mk tn tt ts1 (tb1 ++
            [.mk ("#If_" ++ toString (i1 + 1)) .Local ps2 pb2]) :: rest)
          frame_ok_nil hwf2.2
      have hexit2 : exit_scope ⟨i3 :: (i1 + 1) :: is, f3 :: f1 :: fs,
          c3 :: c1 :: cs,
          .mk ("#Else_" ++ toString (i1 + 1)) .Local ps3 pb3 ::
          .mk tn tt ts1 (tb1 ++
            [.mk ("#If_" ++ toString (i1 + 1)) .Local ps2 pb2]) :: rest⟩ =
          some ⟨(i1 + 1) :: is, f1 :: fs, c1 :: cs,
            .mk tn tt ts1 ((tb1 ++
              [.mk ("#If_" ++ toString (i1 + 1)) .Local ps2 pb2]) ++
              [.mk ("#Else_" ++ toString (i1 + 1)) .Local ps3 pb3]) :: rest⟩ :=
        rfl
      refine ⟨ts1, (tb1 ++ [.mk ("#If_" ++ toString (i1 + 1)) .Local ps2 pb2])
          ++ [.mk ("#Else_" ++ toString (i1 + 1)) .Local ps3 pb3],
        i1 + 1, f1, c1, ?_, Nat.le_trans l1 (Nat.le_succ _), l2, l3,
        frame_ok_append_else
          (frame_ok_append_if hok1
            (show (SymbolTable.mk ("#If_" ++ toString (i1 + 1))
              SymbolTableType.Local ps2 pb2).name =
              "#If_" ++ Nat.repr (i1 + 1) from rfl)
            (GoodTree.mk _ _ _ _ hok2.2.1 hok2.2.2))
          (show (SymbolTable.mk ("#Else_" ++ toString (i1 + 1))
            SymbolTableType.Local ps3 pb3).name =
            "#Else_" ++ Nat.repr (i1 + 1) from rfl)
          (GoodTree.mk _ _ _ _ hok3.2.1 hok3.2.2)⟩
      rw [show enter_expression ⟨ni :: is, nf :: fs, nc :: cs,
            .mk tn tt tsyms tsubs :: rest⟩
            (.IfExpression cond ifstmt (some el)) =
          (match enter_expression ⟨ni :: is, nf :: fs, nc :: cs,
              .mk tn tt tsyms tsubs :: rest⟩ cond with
           | none => none
           | some b1 =>
             match b1.if_num with
             | [] => none
             | n :: is2 =>
               match enter_block (enter_scope ⟨(n + 1) :: is2, b1.for_num,
                   b1.compound_num, b1.tables⟩
                   ("#If_" ++ toString (n + 1)) .Local) ifstmt .Unknown with
               | none => none
               | some b3 =>
                 match exit_scope b3 with
                 | none => none
                 | some b4 =>
                   match enter_block (enter_scope b4
                       ("#Else_" ++ toString (n + 1)) .Local) el .Unknown with
                   | none => none
                   | some b5 => exit_scope b5) from rfl]
      simp only [hcond, enter_scope, hblock, hexit1, hblock2, hexit2]
  | ForEachExpression iter vec st el =>
    intro ni nf nc is fs cs tn tt tsyms tsubs rest hok hwf
    cases el with
    | none =>
      have hwf2 : (vec.identifier_name.isSome && wf_expression iter &&
          wf_statement st && true) = true := hwf
      simp only [Bool.and_eq_true] at hwf2
      obtain ⟨v, rfl⟩ := identifier_name_isSome vec hwf2.1.1.1
      obtain ⟨ts1, hch⟩ := check_identifier_wf v ni nf nc is fs cs tn tt tsyms
        tsubs rest
      obtain ⟨psA, pbA, iA, fA, cA, hiter, _, _, _, hokA⟩ :=
        enter_expression_wf iter 0 0 0 (ni :: is) ((nf + 1) :: fs) (nc :: cs)
          ("#For_" ++ toString (nf + 1)) .Local [] []
          (SymbolTable.mk tn tt ts1 tsubs :: rest) frame_ok_nil hwf2.1.1.2
      obtain ⟨psB, pbB, iB, fB, cB, hst, _, _, _, hokB⟩ :=
        enter_block_wf st .Unknown iA fA cA (ni :: is) ((nf + 1) :: fs)
          (nc :: cs) ("#For_" ++ toString (nf + 1)) .Local psA pbA
          (SymbolTable.mk tn tt ts1 tsubs :: rest) hokA hwf2.1.2
      have hexit1 : exit_scope ⟨iB :: ni :: is, fB :: (nf + 1) :: fs,
          cB :: nc :: cs,
          .mk ("#For_" ++ toString (nf + 1)) .Local psB pbB ::
          .mk tn tt ts1 tsubs :: rest⟩ =
          some ⟨ni :: is, (nf + 1) :: fs, nc :: cs,
            .mk tn tt ts1 (tsubs ++
              [.mk ("#For_" ++ toString (nf + 1)) .Local psB pbB]) :: rest⟩ :=
        rfl
      refine ⟨ts1, tsubs ++ [.mk ("#For_" ++ toString (nf + 1)) .Local psB pbB],
        ni, nf + 1, nc, ?_, Nat.le_refl _, Nat.le_succ _, Nat.le_refl _,
        frame_ok_append_for hok
          (show (SymbolTable.mk ("#For_" ++ toString (nf + 1))
            SymbolTableType.Local psB pbB).name =
            "#For_" ++ Nat.repr (nf + 1) from rfl)
          (GoodTree.mk _ _ _ _ hokB.2.1 hokB.2.2)⟩
      rw [show enter_expression ⟨ni :: is, nf :: fs, nc :: cs,
            .mk tn tt tsyms tsubs :: rest⟩
            (.ForEachExpression iter (.Identifier v) st none) =
          (match check_identifier ⟨ni :: is, nf :: fs, nc :: cs,
              .mk tn tt tsyms tsubs :: rest⟩ (.Identifier v) with
           | none => none
           | some b1 =>
             match b1.for_num with
             | [] => none
             | n :: fs2 =>
               match enter_expression (enter_scope ⟨b1.if_num,
                   (n + 1) :: fs2, b1.compound_num, b1.tables⟩
                   ("#For_" ++ toString (n + 1)) .Local) iter with
               | none => none
               | some b3 =>
                 match enter_block b3 st .Unknown with
                 | none => none
                 | some b4 =>
                   match exit_scope b4 with
                   | none => none
                   | some b5 => some b5) from rfl]
      simp only [hch, enter_scope, hiter, hst, hexit1]
    | some els =>
      have hwf2 : (vec.identifier_name.isSome && wf_expression iter &&
          wf_statement st && wf_statement els) = true := hwf
      simp only [Bool.and_eq_true] at hwf2
      obtain ⟨v, rfl⟩ := identifier_name_isSome vec hwf2.1.1.1
      obtain ⟨ts1, hch⟩ := check_identifier_wf v ni nf nc is fs cs tn tt tsyms
        tsubs rest
      obtain ⟨psA, pbA, iA, fA, cA, hiter, _, _, _, hokA⟩ :=
        enter_expression_wf iter 0 0 0 (ni :: is) ((nf + 1) :: fs) (nc :: cs)
          ("#For_" ++ toString (nf + 1)) .Local [] []
          (SymbolTable.mk tn tt ts1 tsubs :: rest) frame_ok_nil hwf2.1.1.2
      obtain ⟨psB, pbB, iB, fB, cB, hst, _, _, _, hokB⟩ :=
        enter_block_wf st .Unknown iA fA cA (ni :: is) ((nf + 1) :: fs)
          (nc :: cs) ("#For_" ++ toString (nf + 1)) .Local psA pbA
          (SymbolTable.mk tn tt ts1 tsubs :: rest) hokA hwf2.1.2
      have hexit1 : exit_scope ⟨iB :: ni :: is, fB :: (nf + 1) :: fs,
          cB :: nc :: cs,
          .mk ("#For_" ++ toString (nf + 1)) .Local psB pbB ::
          .mk tn tt ts1 tsubs :: rest⟩ =
          some ⟨ni :: is, (nf + 1) :: fs, nc :: cs,
            .mk tn tt ts1 (tsubs ++
              [.mk ("#For_" ++ toString (nf + 1)) .Local psB pbB]) :: rest⟩ :=
        rfl
      obtain ⟨psC, pbC, iC, fC, cC, hels, _, _, _, hokC⟩ :=
        enter_block_wf els .Unknown 0 0 0 (ni :: is) ((nf + 1) :: fs)
          (nc :: cs) ("#Else_" ++ toString (nf + 1)) .Local [] []
          (SymbolTable.mk tn tt ts1 (tsubs ++
            [.mk ("#For_" ++ toString (nf + 1)) .Local psB pbB]) :: rest)
          frame_ok_nil hwf2.2
      have hexit2 : exit_scope ⟨iC :: ni :: is, fC :: (nf + 1) :: fs,
          cC :: nc :: cs,
          .mk ("#Else_" ++ toString (nf + 1)) .Local psC pbC ::
          .mk tn tt ts1 (tsubs ++
            [.mk ("#For_" ++ toString (nf + 1)) .Local psB pbB]) :: rest⟩ =
          some ⟨ni :: is, (nf + 1) :: fs, nc :: cs,
            .mk tn tt ts1 ((tsubs ++
              [.mk ("#For_" ++ toString (nf + 1)) .Local psB pbB]) ++
              [.mk ("#Else_" ++ toString (nf + 1)) .Local psC pbC]) :: rest⟩ :=
        rfl
      refine ⟨ts1, (tsubs ++ [.mk ("#For_" ++ toString (nf + 1)) .Local psB pbB])
          ++ [.mk ("#Else_" ++ toString (nf + 1)) .Local psC pbC],
        ni, nf + 1, nc, ?_, Nat.le_refl _, Nat.le_succ _, Nat.le_refl _,
        frame_ok_append_else
          (frame_ok_append_for hok
            (show (SymbolTable.mk ("#For_" ++ toString (nf + 1))
              SymbolTableType.Local psB pbB).name =
              "#For_" ++ Nat.repr (nf + 1) from rfl)
            (GoodTree.mk _ _ _ _ hokB.2.1 hokB.2.2))
          (show (SymbolTable.mk ("#Else_" ++ toString (nf + 1))
            SymbolTableType.Local psC pbC).name =
            "#Else_" ++ Nat.repr (nf + 1) from rfl)
          (GoodTree.mk _ _ _ _ hokC.2.1 hokC.2.2)⟩
      rw [show enter_expression ⟨ni :: is, nf :: fs, nc :: cs,
            .mk tn tt tsyms tsubs :: rest⟩
            (.ForEachExpression iter (.Identifier v) st (some els)) =
          (match check_identifier ⟨ni :: is, nf :: fs, nc :: cs,
              .mk tn tt tsyms tsubs :: rest⟩ (.Identifier v) with
           | none => none
           | some b1 =>
             match b1.for_num with
             | [] => none
             | n :: fs2 =>
               match enter_expression (enter_scope ⟨b1.if_num,
                   (n + 1) :: fs2, b1.compound_num, b1.tables⟩
                   ("#For_" ++ toString (n + 1)) .Local) iter with
               | none => none
               | some b3 =>
                 match enter_block b3 st .Unknown with
                 | none => none
                 | some b4 =>
                   match exit_scope b4 with
                   | none => none
                   | some b5 =>
                     match enter_block (enter_scope b5
                         ("#Else_" ++ toString (n + 1)) .Local) els
                         .Unknown with
                     | none => none
                     | some b6 => exit_scope b6) from rfl]
      simp only [hch, enter_scope, hiter, hst, hexit1, hels, hexit2]
  | UnaryExpression e =>
    intro ni nf nc is fs cs tn tt tsyms tsubs rest hok hwf
    exact enter_expression_wf e ni nf nc is fs cs tn tt tsyms tsubs rest hok hwf
  | Parameters ps =>
    intro ni nf nc is fs cs tn tt tsyms tsubs rest hok hwf
    exact enter_statements_wf ps .Unknown ni nf nc is fs cs tn tt tsyms tsubs
      rest hok hwf
  | Arguments args =>
    intro ni nf nc is fs cs tn tt tsyms tsubs rest hok hwf
    exact enter_expressions_wf args ni nf nc is fs cs tn tt tsyms tsubs rest
      hok hwf
  | Number v =>
    intro ni nf nc is fs cs tn tt tsyms tsubs rest hok _
    exact ⟨tsyms, tsubs, ni, nf, nc, rfl, Nat.le_refl _, Nat.le_refl _,
      Nat.le_refl _, hok⟩
  | Identifier v =>
    intro ni nf nc is fs cs tn tt tsyms tsubs rest hok _
    obtain ⟨ts2, hch⟩ := check_identifier_wf v ni nf nc is fs cs tn tt tsyms
      tsubs rest
    exact ⟨ts2, tsubs, ni, nf, nc, hch, Nat.le_refl _, Nat.le_refl _,
      Nat.le_refl _, hok⟩

/-- Master induction, expression-list form. -/
theorem enter_expressions_wf (exprs : List Expression) :
    ∀ (ni nf nc : Nat) (is fs cs : List Nat)
      (tn : String) (tt : SymbolTableType) (tsyms : IndexMap)
      (tsubs rest : List SymbolTable),
      frame_ok tsubs ni nf nc →
      wf_expressions exprs = true →
      ∃ tsyms2 tsubs2 ni2 nf2 nc2,
        enter_expressions ⟨ni :: is, nf :: fs, nc :: cs,
            .mk tn tt tsyms tsubs :: rest⟩ exprs =
          some ⟨ni2 :: is, nf2 :: fs, nc2 :: cs,
            .mk tn tt tsyms2 tsubs2 :: rest⟩ ∧
        ni ≤ ni2 ∧ nf ≤ nf2 ∧ nc ≤ nc2 ∧ frame_ok tsubs2 ni2 nf2 nc2 := by
  cases exprs with
  | nil =>
    intro ni nf nc is fs cs tn tt tsyms tsubs rest hok _
    exact ⟨tsyms, tsubs, ni, nf, nc, rfl, Nat.le_refl _, Nat.le_refl _,
      Nat.le_refl _, hok⟩
  | cons e rest2 =>
    intro ni nf nc is fs cs tn tt tsyms tsubs rest hok hwf
    have hwf2 : (wf_expression e && wf_expressions rest2) = true := hwf
    simp only [Bool.and_eq_true] at hwf2
    obtain ⟨h1, h2⟩ := hwf2
    obtain ⟨ts1, tb1, a1, b1, c1, he1, l1, l2, l3, hok1⟩ :=
      enter_expression_wf e ni nf nc is fs cs tn tt tsyms tsubs rest hok h1
    obtain ⟨ts2, tb2, a2, b2, c2, he2, m1, m2, m3, hok2⟩ :=
      enter_expressions_wf rest2 a1 b1 c1 is fs cs tn tt ts1 tb1 rest hok1 h2
    refine ⟨ts2, tb2, a2, b2, c2, ?_, Nat.le_trans l1 m1, Nat.le_trans l2 m2,
      Nat.le_trans l3 m3, hok2⟩
    rw [show enter_expressions ⟨ni :: is, nf :: fs, nc :: cs,
          .mk tn tt tsyms tsubs :: rest⟩ (e :: rest2) =
        (match enter_expression ⟨ni :: is, nf :: fs, nc :: cs,
            .mk tn tt tsyms tsubs :: rest⟩ e with
         | none => none
         | some b1 => enter_expressions b1 rest2) from rfl]
    simp only [he1, he2]
end

/-- C10: under the precondition that every contract name, function name,
declared variable and for-each collection expression in the program is a
bare identifier, the builder is total — the `identifier_name().unwrap()`
branches are unreachable and `make_symbol_tables` returns a `Result`;
and on an input violating the precondition (a for-each whose collection
is the literal `1`), the builder panics (`none`) instead of returning an
error. -/
theorem builder_total_iff_bare_identifiers :
    (∀ p, wf_program p = true → ∃ r, make_symbol_tables p = some r) ∧
    make_symbol_tables prog_foreach_bad_vector = none := by
  constructor
  · intro p hwf
    obtain ⟨stmts⟩ := p
    have hwf2 : wf_statements stmts = true := hwf
    obtain ⟨ts2, tb2, a2, b2, c2, heq, _, _, _, _⟩ :=
      enter_statements_wf stmts .Memory 0 0 0 [] [] [] "#Global" .Global [] []
        [] frame_ok_nil hwf2
    refine ⟨(match analyze_symbol_table []
        (.mk "#Global" .Global ts2 tb2) with
      | .error e => .error e
      | .ok () => .ok (.mk "#Global" .Global ts2 tb2)), ?_⟩
    rw [show make_symbol_tables (.GlobalStatements stmts) =
        (match enter_statements ⟨[0], [0], [0],
            [.mk "#Global" .Global [] []]⟩ stmts .Memory with
         | none => none
         | some b => build b) from rfl, heq]
    rfl
  · rfl

/-- Witness for C10: a bare-identifier program runs to a `Result`. -/
theorem builder_total_iff_bare_identifiers_witness :
    wf_program prog_use_then_declare = true ∧
    ∃ r, make_symbol_tables prog_use_then_declare = some r :=
  ⟨rfl, builder_total_iff_bare_identifiers.1 prog_use_then_declare rfl⟩

/-- Counterexample for C4: under one parent (the global scope), the else
branch of an if and the else branch of a for-each yield two sibling scopes
carrying the same generated name `#Else_1` — the synthetic names of the
siblings of one parent are not pairwise distinct. -/
theorem sibling_synthetic_name_collision :
    ∃ t, make_symbol_tables prog_else_collision = some (.ok t) ∧
      scope_names_at t [] = some ["#If_1", "#Else_1", "#For_1", "#Else_1"] ∧
      ¬ (["#If_1", "#Else_1", "#For_1", "#Else_1"] : List String).Nodup :=
  ⟨_, rfl, rfl, by decide⟩

/-- C4 (amended): for every program whose name positions are bare
identifiers, the built tree satisfies `GoodTree`: at every scope, no two
sibling synthetic (`Local`) scopes share a generated name within the
`#If_`, `#For_` or `#Compound_` family; the `#Else_` scope of an if and
the `#Else_` scope of a for-each under the same parent may collide, since
their counters are independent. -/
theorem synthetic_sibling_names_unique_per_family (p : Program)
    (t : SymbolTable) (hwf : wf_program p = true)
    (hmk : make_symbol_tables p = some (.ok t)) : GoodTree t := by
  obtain ⟨stmts⟩ := p
  have hwf2 : wf_statements stmts = true := hwf
  obtain ⟨ts2, tb2, a2, b2, c2, heq, _, _, _, hok2⟩ :=
    enter_statements_wf stmts .Memory 0 0 0 [] [] [] "#Global" .Global [] []
      [] frame_ok_nil hwf2
  rw [show make_symbol_tables (.GlobalStatements stmts) =
      (match enter_statements ⟨[0], [0], [0],
          [.mk "#Global" .Global [] []]⟩ stmts .Memory with
       | none => none
       | some b => build b) from rfl] at hmk
  rw [heq] at hmk
  have hmk2 : (some (match analyze_symbol_table []
      (.mk "#Global" .Global ts2 tb2) with
      | .error e => .error e
      | .ok () => .ok (.mk "#Global" .Global ts2 tb2)) :
      Option (Except SymbolTableError SymbolTable)) = some (.ok t) := hmk
  cases hres : analyze_symbol_table [] (.mk "#Global" .Global ts2 tb2) with
  | error e =>
    rw [hres] at hmk2
    simp at hmk2
  | ok u =>
    obtain ⟨⟩ := u
    rw [hres] at hmk2
    simp at hmk2
    subst hmk2
    exact GoodTree.mk _ _ _ _ hok2.2.1 hok2.2.2

/-- Witness for C4 (amended) at the `x; uint256 x;` program. -/
theorem synthetic_sibling_names_unique_per_family_witness :
    wf_program prog_use_then_declare = true ∧
    make_symbol_tables prog_use_then_declare =
      some (.ok (.mk "#Global" .Global
        [("x", ⟨"x", .Uint256, .Memory, .Declared⟩)] [])) ∧
    GoodTree (.mk "#Global" .Global
      [("x", ⟨"x", .Uint256, .Memory, .Declared⟩)] []) :=
  ⟨rfl, rfl,
   synthetic_sibling_names_unique_per_family prog_use_then_declare _ rfl rfl⟩

end Zoker
